import Mathlib

/-!
# dcpu16asm: a shallow embedding of the DCPU-16 assembler

The development follows `src/dcpu16asm.cpp`.  A `std::string` is a list of
characters, a `uint16_t` is a natural number below `2 ^ 16`, an `int` is an
integer, `std::map` is an association list kept in key order, and the two
ways the program stops early (`error_die`, which calls `exit(1)`, and a
`std::runtime_error` caught in `main`) are the error side of `Except`.

Library behaviour the source relies on is modelled as follows.

* `std::isspace`, `boost::algorithm::trim`, `boost::algorithm::to_lower`
  and `operator>>` use the classic locale: six white-space characters, and
  only `A`..`Z` change under lower-casing.
* `sscanf` with `%u` / `%x` is the conversion of glibc (2.36) on LP64:
  leading white space is skipped, an optional sign is read, then the longest
  run of digits, at least one; for `%x` the `x` of a leading `0x` is skipped
  and its `0` counts as a digit, so that `0x` followed by no hexadecimal
  digit converts to 0.  The digits are converted like `strtoul` to a 64-bit
  `unsigned long` (saturating, negated for a minus sign) and truncated to
  32 bits.  The `int` the source reads back is the two's complement reading
  of those 32 bits.
* `code.size()` is converted to `int` without wrap-around (buffers are
  shorter than `2 ^ 31` words).
-/

namespace Dcpu16

/-! ## Strings -/

/-- A `std::string`. -/
abbrev Str := List Char

/-- Classification `std::isspace` in the classic locale: space, `\t`, `\n`,
`\v`, `\f`, `\r`. -/
def isspace (c : Char) : Bool :=
  c == ' ' || c == Char.ofNat 9 || c == Char.ofNat 10 || c == Char.ofNat 11 ||
    c == Char.ofNat 12 || c == Char.ofNat 13

/-- Function `boost::algorithm::trim_left`. -/
def trim_left (s : Str) : Str := s.dropWhile isspace

/-- Function `boost::algorithm::trim_right`. -/
def trim_right (s : Str) : Str := (s.reverse.dropWhile isspace).reverse

/-- Function `boost::algorithm::trim`: right end first, then left end. -/
def trim (s : Str) : Str := trim_left (trim_right s)

/-- Function `boost::algorithm::to_lower` in the classic locale. -/
def to_lower (s : Str) : Str := s.map Char.toLower

/-- Method `std::string::find_first_of` for a one-character set, searching
from `pos`; `none` is `std::string::npos`. -/
def find_first_of (s : Str) (c : Char) (pos : Nat) : Option Nat :=
  if (s.drop pos).indexOf c < (s.drop pos).length then
    some (pos + (s.drop pos).indexOf c)
  else none

/-- Method `std::string::substr(pos, n)`. -/
def substr (s : Str) (pos n : Nat) : Str := (s.drop pos).take n

/-- Method `std::string::substr(pos)`. -/
def substr_from (s : Str) (pos : Nat) : Str := s.drop pos

/-! ## The literal parser (`get_literal_value`, lines 200-209) -/

/-- Value of a character as a digit in base 10 or 16, if it is one. -/
def digit_value (base : Nat) (c : Char) : Option Nat :=
  if 48 ≤ c.toNat ∧ c.toNat ≤ 57 then some (c.toNat - 48)
  else if base = 16 ∧ 97 ≤ c.toNat ∧ c.toNat ≤ 102 then some (c.toNat - 87)
  else if base = 16 ∧ 65 ≤ c.toNat ∧ c.toNat ≤ 70 then some (c.toNat - 55)
  else none

/-- Whether a character is a digit of the base. -/
def is_digit (base : Nat) (c : Char) : Bool := (digit_value base c).isSome

/-- Value of a run of digits, most significant first. -/
def digits_value (base : Nat) (ds : Str) : Nat :=
  ds.foldl (fun acc c => acc * base + (digit_value base c).getD 0) 0

/-- Removes the sign a `%u` / `%x` conversion accepts; the flag is `true`
for a minus sign. -/
def strip_sign (s : Str) : Bool × Str :=
  match s with
  | c :: r => if c = '-' then (true, r) else if c = '+' then (false, r) else (false, s)
  | [] => (false, s)

/-- Skips the `x` of a leading `0x` / `0X` in a `%x` conversion; the `0`
stays and is read as a first digit, so the conversion does not fail when no
hexadecimal digit follows. -/
def strip_0x (base : Nat) (s : Str) : Str :=
  match s with
  | c :: x :: r => if base = 16 ∧ c = '0' ∧ (x = 'x' ∨ x = 'X') then c :: r else s
  | _ => s

/-- One `%u` (base 10) or `%x` (base 16) conversion of `sscanf` into a
32-bit object: `none` when `sscanf` returns less than 1 (input failure on
an empty string, or no digit after the optional sign), otherwise the 32 bits
stored. -/
def sscanf_unsigned (base : Nat) (s : Str) : Option Nat :=
  let signed := strip_sign (s.dropWhile isspace)
  let ds := (strip_0x base signed.2).takeWhile (is_digit base)
  if ds = [] then none
  else
    let n := digits_value base ds
    let ul := if 2 ^ 64 ≤ n then 2 ^ 64 - 1 else if signed.1 then (2 ^ 64 - n) % 2 ^ 64 else n
    some (ul % 2 ^ 32)

/-- The `int` read back from 32 stored bits. -/
def to_int32 (u : Nat) : Int := if u < 2 ^ 31 then (u : Int) else (u : Int) - 2 ^ 32

/-- Function `get_literal_value`: the value of a 16-bit unsigned literal, or
`-1`. -/
def get_literal_value (str : Str) : Int :=
  match (if substr str 0 2 = ['0', 'x'] then sscanf_unsigned 16 str
         else sscanf_unsigned 10 str) with
  | none => -1
  | some u => if 0 ≤ to_int32 u ∧ to_int32 u ≤ 65535 then to_int32 u else -1

/-! ## Errors -/

/-- Equality of results is decidable, so closed instances can be evaluated. -/
instance decEqExcept {ε α : Type} [DecidableEq ε] [DecidableEq α] : DecidableEq (Except ε α)
  | .ok a, .ok b => if h : a = b then isTrue (by rw [h]) else isFalse (fun h2 => h (by cases h2; rfl))
  | .error a, .error b =>
    if h : a = b then isTrue (by rw [h]) else isFalse (fun h2 => h (by cases h2; rfl))
  | .ok _, .error _ => isFalse (fun h => by cases h)
  | .error _, .ok _ => isFalse (fun h => by cases h)

/-- The fatal conditions of the program, one per message text:
`"invalid instruction"`, `"expected two comma-separated operands"`,
`"Invalid literal"`, `"Expected register"`, `"Undefined label " + name`. -/
inductive ErrorKind where
  | InvalidInstruction
  | MissingOperandSeparator
  | InvalidLiteral
  | ExpectedRegister
  | UndefinedLabel (name : Str)
  deriving DecidableEq, Repr

/-- What `error_die` writes before it exits with status 1: the message, and
the line number when one is printed. -/
structure Report where
  kind : ErrorKind
  line : Option Nat
  deriving DecidableEq, Repr

/-- Function `error_die`: the line is printed only when `line > 0`. -/
def error_die (msg : ErrorKind) (line : Int) : Report :=
  { kind := msg, line := if line > 0 then some line.toNat else none }

/-! ## The operand encoder (`operand_code`, lines 132-198) -/

/-- The table `reg_code`. -/
def reg_code : List (Str × Nat) :=
  [ (['a'], 0x00), (['b'], 0x01), (['c'], 0x02), (['x'], 0x03),
    (['y'], 0x04), (['z'], 0x05), (['i'], 0x06), (['j'], 0x07),
    (['[', 'a', ']'], 0x08), (['[', 'b', ']'], 0x09), (['[', 'c', ']'], 0x0a),
    (['[', 'x', ']'], 0x0b), (['[', 'y', ']'], 0x0c), (['[', 'z', ']'], 0x0d),
    (['[', 'i', ']'], 0x0e), (['[', 'j', ']'], 0x0f),
    (['p', 'o', 'p'], 0x18), (['p', 'e', 'e', 'k'], 0x19), (['p', 'u', 's', 'h'], 0x1a),
    (['s', 'p'], 0x1b), (['p', 'c'], 0x1c), (['o'], 0x1d) ]

/-- The constant `no_next_word`. -/
def no_next_word : Int := -1

/-- The constant `label_result`. -/
def label_result : Nat × Int := (0x40, no_next_word)

/-- Function `operand_code`: the operand's code and its next word (`-1`
when there is none), or the `std::runtime_error` thrown. -/
def operand_code (str : Str) : Except ErrorKind (Nat × Int) :=
  match reg_code.lookup str with
  | some c => .ok (c, no_next_word)
  | none =>
    if str.head? = some '[' ∧ str.getLast? = some ']' then
      match find_first_of str '+' 1 with
      | some plus =>
        let literal := trim (substr str 1 (plus - 1))
        let reg := trim (substr str (plus + 1) (str.length - plus - 2))
        if reg.length ≠ 1 then .error .ExpectedRegister
        else
          match reg_code.lookup reg with
          | none => .error .ExpectedRegister
          | some rc =>
            if rc > 0x07 then .error .ExpectedRegister
            else if get_literal_value literal < 0 then .error .InvalidLiteral
            else .ok (0x10 + rc, get_literal_value literal)
      | none =>
        let literal := trim (substr str 1 (str.length - 2))
        if get_literal_value literal < 0 then .error .InvalidLiteral
        else .ok (0x1e, get_literal_value literal)
    else if get_literal_value str ≥ 0 then
      if get_literal_value str ≤ 0x1f then
        .ok (0x20 + (get_literal_value str).toNat, no_next_word)
      else .ok (0x1f, get_literal_value str)
    else .ok label_result

/-! ## The label table (`label_info`, lines 38, 57, 70-73) -/

/-- The mapped type `std::pair<int, std::vector<int>>`: the label's address
(`-1` while it has none) and the code-buffer indices to patch. -/
abbrev LabelEntry := Int × List Nat

/-- The map `label_info`, as its entries in iteration (key) order. -/
abbrev LabelInfo := List (Str × LabelEntry)

/-- Comparison `std::less<std::string>`: lexicographic by character value. -/
def str_lt : Str → Str → Bool
  | [], [] => false
  | [], _ :: _ => true
  | _ :: _, [] => false
  | a :: s, b :: t =>
    if a.toNat < b.toNat then true else if b.toNat < a.toNat then false else str_lt s t

/-- Method `std::map::find`; `none` is `end()`. -/
def map_find (m : LabelInfo) (k : Str) : Option LabelEntry := m.lookup k

/-- Insertion of a key the map does not hold, at its place in key order. -/
def map_insert : LabelInfo → Str → LabelEntry → LabelInfo
  | [], k, v => [(k, v)]
  | e :: rest, k, v => if str_lt k e.1 then (k, v) :: e :: rest else e :: map_insert rest k v

/-- Method `std::map::operator[]`, the map after the access: a missing key
is inserted with a value-initialised entry `(0, {})`. -/
def map_index (m : LabelInfo) (k : Str) : LabelInfo :=
  match map_find m k with
  | some _ => m
  | none => map_insert m k (0, [])

/-- Update through the reference `operator[]` returns. -/
def map_modify (m : LabelInfo) (k : Str) (f : LabelEntry → LabelEntry) : LabelInfo :=
  m.map (fun e => if e.1 = k then (e.1, f e.2) else e)

/-- Line 57, `label_info[label_name].first = code.size()`. -/
def define_label (size : Nat) (li : LabelInfo) (label_name : Str) : LabelInfo :=
  map_modify (map_index li label_name) label_name (fun e => ((size : Int), e.2))

/-- The closure `label_ref` (lines 70-73).  It captures `code` by value when
it is created, so `size` is the buffer length before the line emits
anything. -/
def label_ref (size : Nat) (li : LabelInfo) (label_name : Str) : LabelInfo :=
  map_modify
    (match map_find li label_name with
     | none => map_insert li label_name (-1, [])
     | some _ => li)
    label_name (fun e => (e.1, e.2 ++ [size + 1]))

/-! ## The line assembler (`main`, lines 41-117) -/

/-- The table `opcodes`. -/
def opcodes : List (Str × Nat) :=
  [ (['s', 'e', 't'], 0x01), (['a', 'd', 'd'], 0x02), (['s', 'u', 'b'], 0x03),
    (['m', 'u', 'l'], 0x04), (['d', 'i', 'v'], 0x05), (['m', 'o', 'd'], 0x06),
    (['s', 'h', 'l'], 0x07), (['s', 'h', 'r'], 0x08), (['a', 'n', 'd'], 0x09),
    (['b', 'o', 'r'], 0x0a), (['x', 'o', 'r'], 0x0b), (['i', 'f', 'e'], 0x0c),
    (['i', 'f', 'n'], 0x0d), (['i', 'f', 'g'], 0x0e), (['i', 'f', 'b'], 0x0f),
    (['j', 's', 'r'], 0x10) ]

/-- Conversion of an `int` to `uint16_t`. -/
def to_u16 (n : Int) : Nat := (n % 65536).toNat

/-- The assembler's state between lines: the vector `code` and the map
`label_info`. -/
structure State where
  code : List Nat
  label_info : LabelInfo
  deriving DecidableEq, Repr

/-- Lines 45-47: the text before the first `;`, trimmed. -/
def strip_comment (raw : Str) : Str :=
  trim (match find_first_of raw ';' 0 with
        | some comment_start => substr raw 0 comment_start
        | none => raw)

/-- Extraction `ls >> token`: the token (empty at end of input) and the
rest of the stream. -/
def read_token (s : Str) : Str × Str :=
  ((s.dropWhile isspace).takeWhile (fun c => !isspace c),
   (s.dropWhile isspace).dropWhile (fun c => !isspace c))

/-- Lines 54-56: the label a line defines, when it starts with `:`. -/
def label_token (line : Str) : Option Str :=
  if line.head? = some ':' then some (substr_from (read_token line).1 1) else none

/-- The stream after the optional label token. -/
def after_label (line : Str) : Str :=
  if line.head? = some ':' then (read_token line).2 else line

/-- Lines 60-61: the mnemonic token, lower-cased. -/
def instruction_name (line : Str) : Str := to_lower (read_token (after_label line)).1

/-- Line 68, `std::getline(ls, tmp)`: the rest of the stream up to a newline. -/
def operand_text (line : Str) : Str :=
  (read_token (after_label line)).2.takeWhile (fun c => c != Char.ofNat 10)

/-- The closure `handle_operand` (lines 75-85): the operand's code and next
word, and the label table after a possible `label_ref`. -/
def handle_operand (size : Nat) (li : LabelInfo) (o : Str) :
    Except ErrorKind (LabelInfo × (Nat × Int)) :=
  match operand_code (to_lower (trim o)) with
  | .error e => .error e
  | .ok oc =>
    if oc.1 > 0x3f then .ok (label_ref size li (to_lower (trim o)), (0x1f, 0xff))
    else .ok (li, oc)

/-- Lines 87-116: encoding and emission for a line with a known opcode. -/
def emit (lineno : Nat) (opcode : Nat) (tmp : Str) (st : State) : Except Report State :=
  if opcode = 0x00 ∨ opcode > 0x0f then
    match handle_operand st.code.length st.label_info tmp with
    | .error e => .error (error_die e lineno)
    | .ok (li, oc) =>
      .ok { code := st.code ++ [(opcode ||| (oc.1 <<< (4 + 6))) % 65536] ++
                    (if oc.2 ≥ 0 then [to_u16 oc.2] else []),
            label_info := li }
  else
    match find_first_of tmp ',' 0 with
    | none => .error (error_die .MissingOperandSeparator lineno)
    | some comma_pos =>
      match handle_operand st.code.length st.label_info (substr tmp 0 comma_pos) with
      | .error e => .error (error_die e lineno)
      | .ok (li1, oc1) =>
        match handle_operand st.code.length li1 (substr_from tmp (comma_pos + 1)) with
        | .error e => .error (error_die e lineno)
        | .ok (li2, oc2) =>
          .ok { code := st.code ++
                    [(((opcode ||| (oc1.1 <<< 4)) % 65536) ||| (oc2.1 <<< (4 + 6))) % 65536] ++
                    (if oc1.2 > 0 then [to_u16 oc1.2] else []) ++
                    (if oc2.2 > 0 then [to_u16 oc2.2] else []),
                label_info := li2 }

/-- Lines 54-58: the label table after the optional label definition of
the (stripped) line. -/
def define_line_label (st : State) (line : Str) : LabelInfo :=
  match label_token line with
  | some label_name => define_label st.code.length st.label_info label_name
  | none => st.label_info

/-- One iteration of the loop of `main` (lines 41-117) on the input line
`raw`, numbered `lineno`. -/
def process_line (lineno : Nat) (st : State) (raw : Str) : Except Report State :=
  if strip_comment raw = [] then .ok st
  else
    match opcodes.lookup (instruction_name (strip_comment raw)) with
    | none => .error (error_die .InvalidInstruction lineno)
    | some opcode =>
      emit lineno opcode (operand_text (strip_comment raw))
        { code := st.code, label_info := define_line_label st (strip_comment raw) }

/-- The loop of `main`: `lineno` lines have been read before `lines`. -/
def run_lines : Nat → State → List Str → Except Report State
  | _, st, [] => .ok st
  | lineno, st, raw :: rest =>
    match process_line (lineno + 1) st raw with
    | .error e => .error e
    | .ok st1 => run_lines (lineno + 1) st1 rest

/-! ## Label resolution and output (`main`, lines 119-129) -/

/-- Line 124: every site of one label receives the label's address. -/
def patch (code : List Nat) (address : Int) (sites : List Nat) : List Nat :=
  sites.foldl (fun c loc => c.set loc (to_u16 address)) code

/-- Lines 120-125: the pass over `label_info` in key order. -/
def resolve : LabelInfo → List Nat → Except Report (List Nat)
  | [], code => .ok code
  | (name, (address, sites)) :: rest, code =>
    if address = -1 then .error (error_die (.UndefinedLabel name) (-1))
    else resolve rest (patch code address sites)

/-- The program: the words written to the output, or the report of the
fatal error. -/
def assemble (lines : List Str) : Except Report (List Nat) :=
  match run_lines 0 { code := [], label_info := [] } lines with
  | .error e => .error e
  | .ok st => resolve st.label_info st.code

/-! ## What a line defines and references -/

/-- The label `handle_operand` registers for an operand text, if any: the
trimmed, lower-cased text when `operand_code` answers with a code above
`0x3f`. -/
def operand_label (o : Str) : Option Str :=
  match operand_code (to_lower (trim o)) with
  | .error _ => none
  | .ok oc => if oc.1 > 0x3f then some (to_lower (trim o)) else none

/-- The labels the operands of an instruction reference, in the order
`emit` handles them. -/
def emit_refs (opcode : Nat) (tmp : Str) : List Str :=
  if opcode = 0x00 ∨ opcode > 0x0f then (operand_label tmp).toList
  else
    match find_first_of tmp ',' 0 with
    | none => []
    | some comma_pos =>
      (operand_label (substr tmp 0 comma_pos)).toList ++
        (operand_label (substr_from tmp (comma_pos + 1))).toList

/-- The labels an input line references. -/
def line_refs (raw : Str) : List Str :=
  if strip_comment raw = [] then []
  else
    match opcodes.lookup (instruction_name (strip_comment raw)) with
    | none => []
    | some opcode => emit_refs opcode (operand_text (strip_comment raw))

/-- The label an input line defines, if any. -/
def line_def (raw : Str) : Option Str :=
  if strip_comment raw = [] then none else label_token (strip_comment raw)

/-- The label table agrees with the labels referenced (`R`) and defined
(`D`) so far: an entry without address belongs to a label referenced and not
defined, an entry with an address to a defined label, and every such label
has an entry. -/
def TableInv (li : LabelInfo) (R D : Str → Prop) : Prop :=
  (∀ e ∈ li, (e.2.1 = -1 ∧ R e.1 ∧ ¬ D e.1) ∨ (0 ≤ e.2.1 ∧ D e.1)) ∧
  (∀ n, R n → ∃ e ∈ li, e.1 = n) ∧
  (∀ n, D n → ∃ e ∈ li, e.1 = n)

/-- A character that `Nat.toDigits` produces in base `b`. -/
def digit_char_of (b : Nat) (c : Char) : Prop := ∃ d, d < b ∧ c = Nat.digitChar d

/-- Every fixup site recorded in the label table is an index of the code
buffer. -/
def SitesInv (st : State) : Prop :=
  ∀ e ∈ st.label_info, ∀ s ∈ e.2.2, s < st.code.length


/-! ## Auxiliary facts about strings and tables -/

theorem mem_of_lookup {β : Type} :
    ∀ (l : List (Str × β)) (k : Str) (v : β), l.lookup k = some v → (k, v) ∈ l := by
  intro l
  induction l with
  | nil => intro k v h; simp at h
  | cons e rest ih =>
    intro k v h
    obtain ⟨k1, v1⟩ := e
    rw [List.lookup_cons] at h
    by_cases hk : k = k1
    · subst hk
      simp at h
      simp [h]
    · have hb : (k == k1) = false := by simpa using hk
      rw [hb] at h
      exact List.mem_cons_of_mem _ (ih k v h)

/-- A key of `reg_code` holds no `+`. -/
theorem reg_code_lookup_plus (s : Str) (h : '+' ∈ s) : reg_code.lookup s = none := by
  cases hl : reg_code.lookup s with
  | none => rfl
  | some c =>
    have hm := mem_of_lookup _ _ _ hl
    simp only [reg_code, List.mem_cons, Prod.mk.injEq, List.mem_singleton] at hm
    exfalso
    rcases hm with hm | hm | hm | hm | hm | hm | hm | hm | hm | hm | hm | hm | hm | hm | hm |
      hm | hm | hm | hm | hm | hm | hm | hm
    all_goals first
      | (obtain ⟨rfl, _⟩ := hm; revert h; decide)
      | (exact absurd hm (List.not_mem_nil _))

/-- One-character keys of `reg_code` with a code up to 7 are the direct
registers. -/
theorem reg_code_lookup_char (c : Char) :
    (∃ rc, reg_code.lookup [c] = some rc ∧ ¬ rc > 0x07) ↔
      [c] ∈ [['a'], ['b'], ['c'], ['x'], ['y'], ['z'], ['i'], ['j']] := by
  by_cases ha : c = 'a'
  · subst ha; decide
  by_cases hb : c = 'b'
  · subst hb; decide
  by_cases hc : c = 'c'
  · subst hc; decide
  by_cases hx : c = 'x'
  · subst hx; decide
  by_cases hy : c = 'y'
  · subst hy; decide
  by_cases hz : c = 'z'
  · subst hz; decide
  by_cases hi : c = 'i'
  · subst hi; decide
  by_cases hj : c = 'j'
  · subst hj; decide
  by_cases ho : c = 'o'
  · subst ho; decide
  have hl : reg_code.lookup [c] = none := by
    cases hl : reg_code.lookup [c] with
    | none => rfl
    | some v =>
      have hm := mem_of_lookup _ _ _ hl
      simp [reg_code, ha, hb, hc, hx, hy, hz, hi, hj, ho] at hm
  simp [hl, ha, hb, hc, hx, hy, hz, hi, hj]

theorem find_first_of_none (s : Str) (c : Char) (pos : Nat) (h : c ∉ s.drop pos) :
    find_first_of s c pos = none := by
  unfold find_first_of
  rw [if_neg]
  rw [List.indexOf_lt_length]
  exact h

theorem find_first_of_split (pre post : Str) (c : Char) (h : c ∉ pre) :
    find_first_of (pre ++ c :: post) c 0 = some pre.length := by
  unfold find_first_of
  simp only [List.drop_zero]
  rw [List.indexOf_append_of_not_mem h, List.indexOf_cons_self]
  simp

theorem find_first_of_split_one (b : Char) (pre post : Str) (c : Char) (h : c ∉ pre) :
    find_first_of (b :: (pre ++ c :: post)) c 1 = some (1 + pre.length) := by
  unfold find_first_of
  simp only [List.drop_succ_cons, List.drop_zero]
  rw [List.indexOf_append_of_not_mem h, List.indexOf_cons_self]
  simp

theorem bracket_head_last (body : Str) :
    ('[' :: (body ++ [']'])).head? = some '[' ∧ ('[' :: (body ++ [']'])).getLast? = some ']' := by
  constructor
  · rfl
  · rw [← List.cons_append, List.getLast?_concat]

/-- The bracketed form without `+` (lines 183-188), unfolded. -/
theorem operand_code_indirect (T : Str) (hreg : reg_code.lookup ('[' :: (T ++ [']'])) = none)
    (hplus : '+' ∉ T) :
    operand_code ('[' :: (T ++ [']'])) =
      if get_literal_value (trim T) < 0 then .error .InvalidLiteral
      else .ok (0x1e, get_literal_value (trim T)) := by
  have hf : find_first_of ('[' :: (T ++ [']'])) '+' 1 = none := by
    apply find_first_of_none
    simp only [List.drop_succ_cons, List.drop_zero, List.mem_append, List.mem_singleton]
    rintro (h | h)
    · exact hplus h
    · exact absurd h (by decide)
  have hs : substr ('[' :: (T ++ [']'])) 1 (('[' :: (T ++ [']'])).length - 2) = T := by
    simp [substr]
  unfold operand_code
  rw [hreg]
  simp only [bracket_head_last, and_self, if_true, hf, hs]

/-- The bracketed form with `+` (lines 172-182), unfolded. -/
theorem operand_code_offset (pre post : Str) (hpre : '+' ∉ pre) :
    operand_code ('[' :: (pre ++ '+' :: (post ++ [']']))) =
      if (trim post).length ≠ 1 then .error .ExpectedRegister
      else
        match reg_code.lookup (trim post) with
        | none => .error .ExpectedRegister
        | some rc =>
          if rc > 0x07 then .error .ExpectedRegister
          else if get_literal_value (trim pre) < 0 then .error .InvalidLiteral
          else .ok (0x10 + rc, get_literal_value (trim pre)) := by
  have hreg : reg_code.lookup ('[' :: (pre ++ '+' :: (post ++ [']']))) = none :=
    reg_code_lookup_plus _ (by simp)
  have hbr := bracket_head_last (pre ++ '+' :: post)
  have hassoc : (pre ++ '+' :: post) ++ [']'] = pre ++ '+' :: (post ++ [']']) := by simp
  rw [hassoc] at hbr
  have hf := find_first_of_split_one '[' pre (post ++ [']']) '+' hpre
  have h1 : substr ('[' :: (pre ++ '+' :: (post ++ [']']))) 1 (1 + pre.length - 1) = pre := by
    simp [substr]
  have h2 : substr ('[' :: (pre ++ '+' :: (post ++ [']']))) (1 + pre.length + 1)
      (('[' :: (pre ++ '+' :: (post ++ [']']))).length - (1 + pre.length) - 2) = post := by
    have hd : List.drop (1 + pre.length + 1) ('[' :: (pre ++ '+' :: (post ++ [']'])))
        = post ++ [']'] := by
      have : 1 + pre.length + 1 = (pre.length + 1) + 1 := by omega
      rw [this, List.drop_succ_cons]
      have h3 : pre ++ '+' :: (post ++ [']']) = (pre ++ ['+']) ++ (post ++ [']']) := by simp
      rw [h3]
      exact List.drop_left' (by simp)
    have hl : ('[' :: (pre ++ '+' :: (post ++ [']']))).length - (1 + pre.length) - 2
        = post.length := by
      simp only [List.length_cons, List.length_append, List.length_nil]
      omega
    unfold substr
    rw [hd, hl, List.take_left]
  unfold operand_code
  rw [hreg]
  simp only [hbr, and_self, if_true, hf, h1, h2]

/-- Trimming leaves a string alone when neither end is white space. -/
theorem trim_eq_self (s : Str) (hh : ∀ c, s.head? = some c → isspace c = false)
    (hl : ∀ c, s.getLast? = some c → isspace c = false) : trim s = s := by
  have hr : trim_right s = s := by
    unfold trim_right
    cases hrev : s.reverse with
    | nil => simp at hrev; simp [hrev]
    | cons x xs =>
      have hx : s.getLast? = some x := by
        rw [← List.head?_reverse, hrev]; rfl
      rw [List.dropWhile_cons, if_neg (by simp [hl x hx]), ← hrev, List.reverse_reverse]
  unfold trim
  rw [hr]
  unfold trim_left
  cases s with
  | nil => rfl
  | cons x xs => rw [List.dropWhile_cons, if_neg (by simp [hh x rfl])]

theorem trim_bracket (body : Str) : trim ('[' :: (body ++ [']'])) = '[' :: (body ++ [']']) := by
  apply trim_eq_self
  · intro c hc
    simp at hc
    subst hc
    decide
  · intro c hc
    rw [(bracket_head_last body).2] at hc
    simp at hc
    subst hc
    decide

theorem to_lower_bracket (body : Str) :
    to_lower ('[' :: (body ++ [']'])) = '[' :: (to_lower body ++ [']']) := by
  simp [to_lower]

/-- Every code in `reg_code` is at most `0x1d`. -/
theorem reg_code_le (s : Str) (c : Nat) (h : reg_code.lookup s = some c) : c ≤ 0x1d := by
  have hm := mem_of_lookup _ _ _ h
  simp only [reg_code, List.mem_cons, Prod.mk.injEq] at hm
  rcases hm with hm | hm | hm | hm | hm | hm | hm | hm | hm | hm | hm | hm | hm | hm | hm |
    hm | hm | hm | hm | hm | hm | hm | hm
  all_goals first
    | (obtain ⟨_, rfl⟩ := hm; decide)
    | (exact absurd hm (List.not_mem_nil _))

/-- A bracketed operand never gets the label code. -/
theorem operand_code_bracket_le (body : Str) (oc : Nat × Int)
    (h : operand_code ('[' :: (body ++ [']'])) = .ok oc) : oc.1 ≤ 0x3f := by
  have hbr := bracket_head_last body
  unfold operand_code at h
  split at h
  · rename_i c hc
    have := reg_code_le _ _ hc
    cases h
    simp only
    omega
  · simp only [hbr, and_self, if_true] at h
    split at h
    · split at h
      · cases h
      · split at h
        · cases h
        · rename_i rc hrc
          have := reg_code_le _ _ hrc
          split at h
          · cases h
          · split at h
            · cases h
            · cases h
              simp only
              omega
    · split at h
      · cases h
      · cases h
        simp only
        omega

/-! ## The operand encoder: symbol table and bracketed forms -/

/-- C6: every token of the fixed symbol table encodes to its table code with
no next word: `a,b,c,x,y,z,i,j` give `0x00..0x07`, `[a]`..`[j]` give
`0x08..0x0f`, and `pop, peek, push, sp, pc, o` give `0x18..0x1d`; these
tokens are exactly the keys of `reg_code`. -/
theorem symbol_table_codes :
    List.map operand_code
        [['a'], ['b'], ['c'], ['x'], ['y'], ['z'], ['i'], ['j']] =
      List.map (fun k => Except.ok (k, no_next_word)) [0x00, 0x01, 0x02, 0x03, 0x04, 0x05, 0x06, 0x07] ∧
    List.map operand_code
        [['[', 'a', ']'], ['[', 'b', ']'], ['[', 'c', ']'], ['[', 'x', ']'],
         ['[', 'y', ']'], ['[', 'z', ']'], ['[', 'i', ']'], ['[', 'j', ']']] =
      List.map (fun k => Except.ok (k, no_next_word)) [0x08, 0x09, 0x0a, 0x0b, 0x0c, 0x0d, 0x0e, 0x0f] ∧
    List.map operand_code
        [['p', 'o', 'p'], ['p', 'e', 'e', 'k'], ['p', 'u', 's', 'h'], ['s', 'p'], ['p', 'c'], ['o']] =
      List.map (fun k => Except.ok (k, no_next_word)) [0x18, 0x19, 0x1a, 0x1b, 0x1c, 0x1d] ∧
    (∀ e ∈ reg_code, operand_code e.1 = .ok (e.2, -1)) ∧
    List.length reg_code = 22 := by
  decide

/-- C8: for a text `pre` without `+` whose trimmed form parses as the literal
`v` (`0 ≤ v`), and a text `post` whose trimmed form is the direct register
`r` of index `k` among `a,b,c,x,y,z,i,j`, the operand `[pre+post]` encodes as
code `0x10 + k` with next word `v`. -/
theorem offset_indirect_operand (pre post : Str) (r : Char) (k : Nat) (v : Int)
    (hpre : '+' ∉ pre)
    (hr : ['a', 'b', 'c', 'x', 'y', 'z', 'i', 'j'][k]? = some r)
    (hpost : trim post = [r])
    (hv : get_literal_value (trim pre) = v) (h0 : 0 ≤ v) :
    operand_code ('[' :: (pre ++ '+' :: (post ++ [']']))) = .ok (0x10 + k, v) := by
  have hk : k < 8 := by
    by_contra hge
    rw [List.getElem?_eq_none (by simpa using hge)] at hr
    cases hr
  have hlook : reg_code.lookup [r] = some k := by
    interval_cases k <;> simp at hr <;> subst hr <;> decide
  rw [operand_code_offset pre post hpre, hpost, hv]
  simp only [List.length_singleton, ne_eq, not_true_eq_false, if_false, hlook]
  rw [if_neg (by omega), if_neg (by omega)]

/-- The operand `[5+a]` encodes as `(0x10, 5)`, also with blanks inside the
brackets. -/
theorem offset_indirect_operand_witness :
    operand_code ('[' :: (['5'] ++ '+' :: (['a'] ++ [']']))) = .ok (0x10 + 0, 5) ∧
    operand_code ('[' :: ([' ', '5', ' '] ++ '+' :: ([' ', 'a', ' '] ++ [']']))) = .ok (0x10 + 0, 5) :=
  ⟨offset_indirect_operand ['5'] ['a'] 'a' 0 5 (by decide) (by decide) (by decide) (by decide)
      (by decide),
   offset_indirect_operand [' ', '5', ' '] [' ', 'a', ' '] 'a' 0 5 (by decide) (by decide)
      (by decide) (by decide) (by decide)⟩

/-- C9: an operand `[T]` that is no key of the symbol table and holds no `+`
encodes as code `0x1e` with next word `v` when the trimmed `T` parses as the
literal `v`, and fails with `InvalidLiteral` when it does not parse; and no
bracketed operand at all makes `handle_operand` register a label reference. -/
theorem indirect_literal_operand (T : Str)
    (hreg : reg_code.lookup ('[' :: (T ++ [']'])) = none) (hplus : '+' ∉ T) :
    (0 ≤ get_literal_value (trim T) →
      operand_code ('[' :: (T ++ [']'])) = .ok (0x1e, get_literal_value (trim T))) ∧
    (get_literal_value (trim T) < 0 →
      operand_code ('[' :: (T ++ [']'])) = .error .InvalidLiteral) ∧
    (∀ (body : Str) (size : Nat) (li : LabelInfo) (r : LabelInfo × (Nat × Int)),
      handle_operand size li ('[' :: (body ++ [']'])) = .ok r → r.1 = li ∧ r.2.1 ≤ 0x3f ∧
        operand_code (to_lower (trim ('[' :: (body ++ [']'])))) = .ok r.2) := by
  refine ⟨?_, ?_, ?_⟩
  · intro h
    rw [operand_code_indirect T hreg hplus, if_neg (by omega)]
  · intro h
    rw [operand_code_indirect T hreg hplus, if_pos h]
  · intro body size li r h
    unfold handle_operand at h
    rw [trim_bracket, to_lower_bracket] at h ⊢
    cases hoc : operand_code ('[' :: (to_lower body ++ [']'])) with
    | error e => rw [hoc] at h; cases h
    | ok oc =>
      rw [hoc] at h
      have hle := operand_code_bracket_le _ _ hoc
      simp only at h
      rw [if_neg (by omega)] at h
      cases h
      exact ⟨rfl, hle, rfl⟩

/-- The operands `[300]`, `[0x]` and `[0xg]` encode as `(0x1e, 300)`,
`(0x1e, 0)` and `(0x1e, 0)`, and `[start]` fails with `InvalidLiteral`. -/
theorem indirect_literal_operand_witness :
    operand_code ('[' :: (['3', '0', '0'] ++ [']'])) = .ok (0x1e, 300) ∧
    operand_code ('[' :: (['0', 'x'] ++ [']'])) =
      .ok (0x1e, get_literal_value (trim ['0', 'x'])) ∧
    get_literal_value (trim ['0', 'x']) = 0 ∧
    operand_code ('[' :: (['0', 'x', 'g'] ++ [']'])) =
      .ok (0x1e, get_literal_value (trim ['0', 'x', 'g'])) ∧
    get_literal_value (trim ['0', 'x', 'g']) = 0 ∧
    operand_code ('[' :: (['s', 't', 'a', 'r', 't'] ++ [']'])) = .error .InvalidLiteral :=
  ⟨(indirect_literal_operand ['3', '0', '0'] (by decide) (by decide)).1 (by decide),
   (indirect_literal_operand ['0', 'x'] (by decide) (by decide)).1 (by decide),
   by decide,
   (indirect_literal_operand ['0', 'x', 'g'] (by decide) (by decide)).1 (by decide),
   by decide,
   (indirect_literal_operand ['s', 't', 'a', 'r', 't'] (by decide) (by decide)).2.1 (by decide)⟩

/-- C10: for a bracketed operand `[pre+post]`, where the `+` shown is the
first one, encoding fails with `ExpectedRegister` exactly when the trimmed
`post` is not one of the one-character direct registers `a,b,c,x,y,z,i,j`;
the literal part `pre` plays no role in that outcome. -/
theorem offset_register_rejected (pre post : Str) (hpre : '+' ∉ pre) :
    operand_code ('[' :: (pre ++ '+' :: (post ++ [']']))) = .error .ExpectedRegister ↔
      trim post ∉ [['a'], ['b'], ['c'], ['x'], ['y'], ['z'], ['i'], ['j']] := by
  rw [operand_code_offset pre post hpre]
  by_cases hlen : (trim post).length = 1
  · obtain ⟨c, hc⟩ := List.length_eq_one.mp hlen
    rw [hc]
    have hiff := reg_code_lookup_char c
    simp only [List.length_singleton, ne_eq, not_true_eq_false, if_false]
    cases hl : reg_code.lookup [c] with
    | none =>
      simp only [true_iff]
      intro hmem
      obtain ⟨rc, hrc, _⟩ := hiff.mpr hmem
      rw [hl] at hrc
      cases hrc
    | some rc =>
      simp only
      by_cases hgt : rc > 0x07
      · rw [if_pos hgt]
        simp only [true_iff]
        intro hmem
        obtain ⟨rc1, hrc1, hle⟩ := hiff.mpr hmem
        rw [hl] at hrc1
        cases hrc1
        exact hle hgt
      · rw [if_neg hgt]
        have hmem := hiff.mp ⟨rc, hl, hgt⟩
        constructor
        · intro h
          split at h <;> cases h
        · intro h
          exact absurd hmem h
  · rw [if_pos hlen]
    simp only [true_iff]
    intro hmem
    apply hlen
    simp only [List.mem_cons, List.mem_singleton] at hmem
    rcases hmem with h | h | h | h | h | h | h | h | h
    all_goals first
      | (rw [h]; rfl)
      | (exact absurd h (List.not_mem_nil _))

/-- The operands `[5+bb]`, `[5+]`, `[5+o]` and `[zz+1]` fail with
`ExpectedRegister`, and `[zz+a]` does not. -/
theorem offset_register_rejected_witness :
    operand_code ('[' :: (['5'] ++ '+' :: (['b', 'b'] ++ [']']))) = .error .ExpectedRegister ∧
    operand_code ('[' :: (['5'] ++ '+' :: ([] ++ [']']))) = .error .ExpectedRegister ∧
    operand_code ('[' :: (['5'] ++ '+' :: (['o'] ++ [']']))) = .error .ExpectedRegister ∧
    operand_code ('[' :: (['z', 'z'] ++ '+' :: (['1'] ++ [']']))) = .error .ExpectedRegister ∧
    operand_code ('[' :: (['z', 'z'] ++ '+' :: (['a'] ++ [']']))) ≠ .error .ExpectedRegister :=
  ⟨(offset_register_rejected ['5'] ['b', 'b'] (by decide)).mpr (by decide),
   (offset_register_rejected ['5'] [] (by decide)).mpr (by decide),
   (offset_register_rejected ['5'] ['o'] (by decide)).mpr (by decide),
   (offset_register_rejected ['z', 'z'] ['1'] (by decide)).mpr (by decide),
   fun h => (offset_register_rejected ['z', 'z'] ['a'] (by decide)).mp h (by decide)⟩

/-! ## Numerals -/

theorem digit_char_facts (b : Nat) (hb : b = 10 ∨ b = 16) (c : Char) (h : digit_char_of b c) :
    (∃ d, d < b ∧ digit_value b c = some d ∧ c = Nat.digitChar d) ∧ isspace c = false ∧
      c ≠ '-' ∧ c ≠ '+' ∧ c ≠ 'x' ∧ c ≠ 'X' ∧ c ≠ ',' ∧ c ≠ '[' ∧
      Char.toLower c = c ∧ (b = 10 → 48 ≤ c.toNat ∧ c.toNat ≤ 57) := by
  obtain ⟨d, hd, rfl⟩ := h
  rcases hb with rfl | rfl
  · refine ⟨⟨d, hd, ?_, rfl⟩, ?_⟩
    · interval_cases d <;> decide
    · interval_cases d <;> decide
  · refine ⟨⟨d, hd, ?_, rfl⟩, ?_⟩
    · interval_cases d <;> decide
    · interval_cases d <;> decide

theorem digits_value_append (b : Nat) (pre : Str) (c : Char) :
    digits_value b (pre ++ [c]) = digits_value b pre * b + (digit_value b c).getD 0 := by
  simp [digits_value, List.foldl_append]

/-- The digits `Nat.toDigitsCore` puts in front of its accumulator. -/
theorem toDigitsCore_spec (b : Nat) (hb : b = 10 ∨ b = 16) :
    ∀ (fuel n : Nat) (ds : Str), n < fuel →
      ∃ pre, Nat.toDigitsCore b fuel n ds = pre ++ ds ∧ pre ≠ [] ∧
        (∀ c ∈ pre, digit_char_of b c) ∧ digits_value b pre = n := by
  have hb2 : 2 ≤ b := by rcases hb with rfl | rfl <;> omega
  intro fuel
  induction fuel with
  | zero => intro n ds h; omega
  | succ fuel ih =>
    intro n ds hn
    have hmod : n % b < b := Nat.mod_lt _ (by omega)
    have hdc : digit_char_of b (Nat.digitChar (n % b)) := ⟨n % b, hmod, rfl⟩
    obtain ⟨⟨d, _, hdv, hdeq⟩, _⟩ := digit_char_facts b hb _ hdc
    have hval : (digit_value b (Nat.digitChar (n % b))).getD 0 = n % b := by
      rcases hb with rfl | rfl
      · have : n % 10 < 10 := hmod
        interval_cases (n % 10) <;> decide
      · have : n % 16 < 16 := hmod
        interval_cases (n % 16) <;> decide
    unfold Nat.toDigitsCore
    simp only
    by_cases hq : n / b = 0
    · rw [if_pos hq]
      refine ⟨[Nat.digitChar (n % b)], rfl, by simp, ?_, ?_⟩
      · intro c hc
        simp at hc
        subst hc
        exact hdc
      · have := digits_value_append b [] (Nat.digitChar (n % b))
        simp only [List.nil_append] at this
        rw [this, hval]
        have hlt : n < b := by
          rcases Nat.div_eq_zero_iff (by omega : 0 < b) |>.mp hq with h
          exact h
        simp [digits_value, Nat.mod_eq_of_lt hlt]
    · rw [if_neg hq]
      have hlt : n / b < fuel := by
        have hnpos : 0 < n := by
          by_contra h0
          have : n = 0 := by omega
          subst this
          simp at hq
        have : n / b < n := Nat.div_lt_self hnpos (by omega)
        omega
      obtain ⟨pre, hpre, hne, hall, hv⟩ := ih (n / b) (Nat.digitChar (n % b) :: ds) hlt
      refine ⟨pre ++ [Nat.digitChar (n % b)], ?_, by simp, ?_, ?_⟩
      · rw [hpre]; simp
      · intro c hc
        rcases List.mem_append.mp hc with h | h
        · exact hall c h
        · simp at h
          subst h
          exact hdc
      · rw [digits_value_append, hv, hval]
        exact Nat.div_add_mod' n b

theorem toDigits_spec (b : Nat) (hb : b = 10 ∨ b = 16) (n : Nat) :
    Nat.toDigits b n ≠ [] ∧ (∀ c ∈ Nat.toDigits b n, digit_char_of b c) ∧
      digits_value b (Nat.toDigits b n) = n := by
  obtain ⟨pre, hpre, hne, hall, hv⟩ := toDigitsCore_spec b hb (n + 1) n [] (by omega)
  unfold Nat.toDigits
  rw [hpre, List.append_nil]
  exact ⟨hne, hall, hv⟩

theorem takeWhile_digits (b : Nat) (hb : b = 10 ∨ b = 16) (ds : Str)
    (hall : ∀ c ∈ ds, digit_char_of b c) : ds.takeWhile (is_digit b) = ds := by
  rw [List.takeWhile_eq_self_iff]
  intro c hc
  obtain ⟨⟨d, _, hd, _⟩, _⟩ := digit_char_facts b hb c (hall c hc)
  simp [is_digit, hd]

theorem strip_0x_ten (s : Str) : strip_0x 10 s = s := by
  unfold strip_0x
  split
  · rw [if_neg (by omega)]
  · rfl

/-- The `%u` conversion of a run of decimal digits. -/
theorem sscanf_dec (ds : Str) (hne : ds ≠ []) (hall : ∀ c ∈ ds, digit_char_of 10 c) :
    sscanf_unsigned 10 ds =
      some ((if 2 ^ 64 ≤ digits_value 10 ds then 2 ^ 64 - 1 else digits_value 10 ds) % 2 ^ 32) := by
  cases ds with
  | nil => exact absurd rfl hne
  | cons c r =>
    obtain ⟨_, hsp, hm, hp, _⟩ := digit_char_facts 10 (Or.inl rfl) c (hall c (by simp))
    have h1 : (c :: r).dropWhile isspace = c :: r := by
      rw [List.dropWhile_cons, if_neg (by simp [hsp])]
    have h2 : strip_sign (c :: r) = (false, c :: r) := by
      unfold strip_sign
      simp only
      rw [if_neg hm, if_neg hp]
    unfold sscanf_unsigned
    simp only [h1, h2, strip_0x_ten, takeWhile_digits 10 (Or.inl rfl) (c :: r) hall]
    rw [if_neg (by simp)]
    simp

theorem digits_value_zero (b : Nat) (ds : Str) :
    digits_value b ('0' :: ds) = digits_value b ds := by
  have h0 : (digit_value b '0').getD 0 = 0 := by
    unfold digit_value
    rw [if_pos (by decide)]
    rfl
  unfold digits_value
  rw [List.foldl_cons, h0, Nat.zero_mul]

/-- The `%x` conversion of `0x` followed by a run of hexadecimal digits. -/
theorem sscanf_hex (ds : Str) (hall : ∀ c ∈ ds, digit_char_of 16 c) :
    sscanf_unsigned 16 ('0' :: 'x' :: ds) =
      some ((if 2 ^ 64 ≤ digits_value 16 ds then 2 ^ 64 - 1 else digits_value 16 ds) % 2 ^ 32) := by
  have h1 : ('0' :: 'x' :: ds).dropWhile isspace = '0' :: 'x' :: ds := by
    rw [List.dropWhile_cons, if_neg (by decide)]
  have h2 : strip_sign ('0' :: 'x' :: ds) = (false, '0' :: 'x' :: ds) := by
    unfold strip_sign
    simp only
    rw [if_neg (by decide), if_neg (by decide)]
  have h3 : strip_0x 16 ('0' :: 'x' :: ds) = '0' :: ds := by
    unfold strip_0x
    simp
  have hall0 : ∀ c ∈ '0' :: ds, digit_char_of 16 c := by
    intro c hc
    rcases List.mem_cons.mp hc with rfl | hc
    · exact ⟨0, by decide, by decide⟩
    · exact hall c hc
  unfold sscanf_unsigned
  simp only [h1, h2, h3, takeWhile_digits 16 (Or.inr rfl) ('0' :: ds) hall0]
  rw [if_neg (by simp), digits_value_zero]
  simp

theorem to_int32_small (v : Nat) (hv : v ≤ 65535) :
    to_int32 ((if 2 ^ 64 ≤ v then 2 ^ 64 - 1 else v) % 2 ^ 32) = (v : Int) := by
  have h1 : ¬ (2 ^ 64 ≤ v) := by omega
  rw [if_neg h1]
  have h2 : v % 2 ^ 32 = v := Nat.mod_eq_of_lt (by omega)
  rw [h2]
  unfold to_int32
  rw [if_pos (by omega)]

/-- A decimal numeral does not start with `0x`. -/
theorem dec_not_0x (ds : Str) (hall : ∀ c ∈ ds, digit_char_of 10 c) :
    substr ds 0 2 ≠ ['0', 'x'] := by
  intro h
  unfold substr at h
  simp only [List.drop_zero] at h
  match ds, hall, h with
  | [], _, h => simp at h
  | [_], _, h => simp at h
  | a :: x :: r, hall, h =>
    simp at h
    obtain ⟨_, hx⟩ := h
    obtain ⟨_, _, _, _, hnx, _⟩ := digit_char_facts 10 (Or.inl rfl) x (hall x (by simp))
    exact hnx hx

/-- `get_literal_value` on the decimal numeral of `v`. -/
theorem get_literal_value_dec (v : Nat) (hv : v ≤ 65535) :
    get_literal_value (Nat.toDigits 10 v) = (v : Int) := by
  obtain ⟨hne, hall, hval⟩ := toDigits_spec 10 (Or.inl rfl) v
  unfold get_literal_value
  rw [if_neg (dec_not_0x _ hall), sscanf_dec _ hne hall, hval]
  simp only
  rw [to_int32_small v hv, if_pos (by omega)]

/-- `get_literal_value` on the hexadecimal numeral of `v`. -/
theorem get_literal_value_hex (v : Nat) (hv : v ≤ 65535) :
    get_literal_value ('0' :: 'x' :: Nat.toDigits 16 v) = (v : Int) := by
  obtain ⟨hne, hall, hval⟩ := toDigits_spec 16 (Or.inr rfl) v
  have hs : substr ('0' :: 'x' :: Nat.toDigits 16 v) 0 2 = ['0', 'x'] := by
    simp [substr]
  unfold get_literal_value
  rw [if_pos hs, sscanf_hex _ hall, hval]
  simp only
  rw [to_int32_small v hv, if_pos (by omega)]

/-- A string that starts with a decimal digit is no key of `reg_code` and
is not bracketed. -/
theorem reg_code_lookup_digit (c : Char) (r : Str) (hc : 48 ≤ c.toNat ∧ c.toNat ≤ 57) :
    reg_code.lookup (c :: r) = none ∧ (c :: r).head? ≠ some '[' := by
  constructor
  · cases hl : reg_code.lookup (c :: r) with
    | none => rfl
    | some v =>
      have hm := mem_of_lookup _ _ _ hl
      simp only [reg_code, List.mem_cons, Prod.mk.injEq, List.cons.injEq] at hm
      exfalso
      rcases hm with hm | hm | hm | hm | hm | hm | hm | hm | hm | hm | hm | hm | hm | hm | hm |
        hm | hm | hm | hm | hm | hm | hm | hm
      all_goals first
        | (obtain ⟨⟨rfl, _⟩, _⟩ := hm; revert hc; decide)
        | (exact absurd hm (List.not_mem_nil _))
  · intro h
    simp at h
    subst h
    revert hc
    decide

/-- The unbracketed literal branch (lines 190-195) on a numeral. -/
theorem operand_code_numeral (v : Nat) (c : Char) (r : Str)
    (hc : 48 ≤ c.toNat ∧ c.toNat ≤ 57) (hv : get_literal_value (c :: r) = (v : Int)) :
    operand_code (c :: r) =
      if v ≤ 0x1f then .ok (0x20 + v, no_next_word) else .ok (0x1f, (v : Int)) := by
  obtain ⟨hl, hh⟩ := reg_code_lookup_digit c r hc
  unfold operand_code
  rw [hl]
  simp only
  rw [if_neg (fun h => hh h.1), hv, if_pos (by omega)]
  by_cases h : v ≤ 0x1f
  · rw [if_pos h, if_pos (by omega)]
    simp
  · rw [if_neg h, if_neg (by omega)]

/-! ## Emission -/

/-- The single-operand path of `emit` (lines 89-96). -/
theorem emit_single (lineno opcode : Nat) (tmp : Str) (st : State) (li : LabelInfo)
    (oc : Nat × Int) (hop : opcode = 0x00 ∨ opcode > 0x0f)
    (h : handle_operand st.code.length st.label_info tmp = .ok (li, oc)) :
    emit lineno opcode tmp st =
      .ok { code := st.code ++ [(opcode ||| (oc.1 <<< (4 + 6))) % 65536] ++
                    (if oc.2 ≥ 0 then [to_u16 oc.2] else []),
            label_info := li } := by
  unfold emit
  rw [if_pos hop, h]

/-- The two-operand path of `emit` (lines 97-110) once the operand text is
split at its first comma. -/
theorem emit_split (lineno opcode : Nat) (tmp : Str) (comma_pos : Nat) (st : State)
    (li1 li2 : LabelInfo) (oc1 oc2 : Nat × Int) (hop : ¬ (opcode = 0x00 ∨ opcode > 0x0f))
    (hc : find_first_of tmp ',' 0 = some comma_pos)
    (h1 : handle_operand st.code.length st.label_info (substr tmp 0 comma_pos) = .ok (li1, oc1))
    (h2 : handle_operand st.code.length li1 (substr_from tmp (comma_pos + 1)) = .ok (li2, oc2)) :
    emit lineno opcode tmp st =
      .ok { code := st.code ++
                [(((opcode ||| (oc1.1 <<< 4)) % 65536) ||| (oc2.1 <<< (4 + 6))) % 65536] ++
                (if oc1.2 > 0 then [to_u16 oc1.2] else []) ++
                (if oc2.2 > 0 then [to_u16 oc2.2] else []),
            label_info := li2 } := by
  unfold emit
  rw [if_neg hop, hc]
  simp only
  rw [h1]
  simp only
  rw [h2]

theorem split_at_comma (op1 op2 : Str) (hc : ',' ∉ op1) :
    find_first_of (op1 ++ ',' :: op2) ',' 0 = some op1.length ∧
      substr (op1 ++ ',' :: op2) 0 op1.length = op1 ∧
      substr_from (op1 ++ ',' :: op2) (op1.length + 1) = op2 := by
  refine ⟨find_first_of_split op1 op2 ',' hc, ?_, ?_⟩
  · simp [substr]
  · unfold substr_from
    have : op1 ++ ',' :: op2 = (op1 ++ [',']) ++ op2 := by simp
    rw [this]
    exact List.drop_left' (by simp)

/-- The two-operand path of `emit` on the text `op1,op2`. -/
theorem emit_basic (lineno opcode : Nat) (op1 op2 : Str) (st : State)
    (li1 li2 : LabelInfo) (oc1 oc2 : Nat × Int) (hop : ¬ (opcode = 0x00 ∨ opcode > 0x0f))
    (hc : ',' ∉ op1)
    (h1 : handle_operand st.code.length st.label_info op1 = .ok (li1, oc1))
    (h2 : handle_operand st.code.length li1 op2 = .ok (li2, oc2)) :
    emit lineno opcode (op1 ++ ',' :: op2) st =
      .ok { code := st.code ++
                [(((opcode ||| (oc1.1 <<< 4)) % 65536) ||| (oc2.1 <<< (4 + 6))) % 65536] ++
                (if oc1.2 > 0 then [to_u16 oc1.2] else []) ++
                (if oc2.2 > 0 then [to_u16 oc2.2] else []),
            label_info := li2 } := by
  obtain ⟨hf, hs1, hs2⟩ := split_at_comma op1 op2 hc
  apply emit_split lineno opcode _ op1.length st li1 li2 oc1 oc2 hop hf
  · rw [hs1]; exact h1
  · rw [hs2]; exact h2

theorem mem_dropWhile_of_not (p : Char → Bool) (c : Char) (hp : p c = false) :
    ∀ s : Str, c ∈ s → c ∈ s.dropWhile p := by
  intro s
  induction s with
  | nil => intro h; exact h
  | cons x xs ih =>
    intro h
    rw [List.dropWhile_cons]
    by_cases hx : p x = true
    · rw [if_pos hx]
      rcases List.mem_cons.mp h with rfl | h
      · rw [hp] at hx; cases hx
      · exact ih h
    · rw [if_neg hx]
      exact h

/-- Trimming removes white space only. -/
theorem mem_trim (c : Char) (hc : isspace c = false) (s : Str) (h : c ∈ s) : c ∈ trim s := by
  unfold trim trim_left trim_right
  apply mem_dropWhile_of_not _ _ hc
  rw [List.mem_reverse]
  apply mem_dropWhile_of_not _ _ hc
  rw [List.mem_reverse]
  exact h

/-- What the claims call the numeral of `v`: its decimal digits, or `0x`
and its hexadecimal digits. -/
theorem numeral_facts (v : Nat) (num : Str) (hv : v ≤ 65535)
    (hnum : num = Nat.toDigits 10 v ∨ num = '0' :: 'x' :: Nat.toDigits 16 v) :
    (∃ c r, num = c :: r ∧ 48 ≤ c.toNat ∧ c.toNat ≤ 57) ∧
      get_literal_value num = (v : Int) ∧ ',' ∉ num := by
  rcases hnum with rfl | rfl
  · obtain ⟨hne, hall, _⟩ := toDigits_spec 10 (Or.inl rfl) v
    refine ⟨?_, get_literal_value_dec v hv, ?_⟩
    · cases hd : Nat.toDigits 10 v with
      | nil => exact absurd hd hne
      | cons c r =>
        have h10 := (digit_char_facts 10 (Or.inl rfl) c (hall c (by simp [hd]))).2.2.2.2.2.2.2.2.2 rfl
        exact ⟨c, r, rfl, h10⟩
    · intro h
      exact (digit_char_facts 10 (Or.inl rfl) _ (hall _ h)).2.2.2.2.2.2.1 rfl
  · obtain ⟨hne, hall, _⟩ := toDigits_spec 16 (Or.inr rfl) v
    refine ⟨⟨'0', _, rfl, by decide⟩, get_literal_value_hex v hv, ?_⟩
    intro h
    simp only [List.mem_cons] at h
    rcases h with h | h | h
    · exact absurd h (by decide)
    · exact absurd h (by decide)
    · exact (digit_char_facts 16 (Or.inr rfl) _ (hall _ h)).2.2.2.2.2.2.1 rfl

/-- `handle_operand` on a text that is a numeral once trimmed and
lower-cased: no label reference is made. -/
theorem handle_operand_numeral (v : Nat) (num o : Str) (hv : v ≤ 65535)
    (hnum : num = Nat.toDigits 10 v ∨ num = '0' :: 'x' :: Nat.toDigits 16 v)
    (ho : to_lower (trim o) = num) (size : Nat) (li : LabelInfo) :
    handle_operand size li o =
      .ok (li, if v ≤ 0x1f then (0x20 + v, no_next_word) else (0x1f, (v : Int))) ∧ ',' ∉ o := by
  obtain ⟨⟨c, r, hcr, hc⟩, hval, hcomma⟩ := numeral_facts v num hv hnum
  constructor
  · unfold handle_operand
    rw [ho, hcr, operand_code_numeral v c r hc (hcr ▸ hval)]
    by_cases h : v ≤ 0x1f
    · simp only [if_pos h]
      rw [if_neg (by omega)]
    · simp only [if_neg h]
      rw [if_neg (by omega)]
  · intro h
    apply hcomma
    rw [← ho]
    have := mem_trim ',' (by decide) o h
    unfold to_lower
    rw [List.mem_map]
    exact ⟨',', this, by decide⟩

theorem to_u16_small (v : Nat) (hv : v ≤ 65535) : to_u16 (v : Int) = v := by
  unfold to_u16
  omega

/-- C7: with `num` the decimal numeral of `v` or `0x` and its hexadecimal
numeral, `0 ≤ v ≤ 65535`: for `v ≤ 31` the operand `num` encodes as code
`0x20 + v` with no next word; for `32 ≤ v` it encodes as code `0x1f` with
next word `v`, and an operand text that is `num` once trimmed and lower-cased
has the word `v` appended after the instruction word when it is the operand
of a single-operand instruction, or the first or the second operand of a
two-operand instruction. -/
theorem literal_operand (v : Nat) (num : Str) (hv : v ≤ 65535)
    (hnum : num = Nat.toDigits 10 v ∨ num = '0' :: 'x' :: Nat.toDigits 16 v) :
    (v ≤ 31 → operand_code num = .ok (0x20 + v, no_next_word)) ∧
    (32 ≤ v →
      operand_code num = .ok (0x1f, (v : Int)) ∧
      ∀ (o : Str) (lineno : Nat) (st : State), to_lower (trim o) = num →
        (∀ opcode, (opcode = 0x00 ∨ opcode > 0x0f) →
          emit lineno opcode o st =
            .ok { code := st.code ++ [(opcode ||| (0x1f <<< (4 + 6))) % 65536] ++ [v],
                  label_info := st.label_info }) ∧
        (∀ opcode other li oc, ¬ (opcode = 0x00 ∨ opcode > 0x0f) →
          handle_operand st.code.length st.label_info other = .ok (li, oc) →
          emit lineno opcode (o ++ ',' :: other) st =
            .ok { code := st.code ++
                      [(((opcode ||| (0x1f <<< 4)) % 65536) ||| (oc.1 <<< (4 + 6))) % 65536] ++
                      [v] ++ (if oc.2 > 0 then [to_u16 oc.2] else []),
                  label_info := li }) ∧
        (∀ opcode other li oc, ¬ (opcode = 0x00 ∨ opcode > 0x0f) → ',' ∉ other →
          handle_operand st.code.length st.label_info other = .ok (li, oc) →
          emit lineno opcode (other ++ ',' :: o) st =
            .ok { code := st.code ++
                      [(((opcode ||| (oc.1 <<< 4)) % 65536) ||| (0x1f <<< (4 + 6))) % 65536] ++
                      (if oc.2 > 0 then [to_u16 oc.2] else []) ++ [v],
                  label_info := li })) := by
  obtain ⟨⟨c, r, hcr, hc⟩, hval, _⟩ := numeral_facts v num hv hnum
  have hoc := operand_code_numeral v c r hc (hcr ▸ hval)
  rw [← hcr] at hoc
  constructor
  · intro h
    rw [hoc, if_pos (by omega)]
  · intro h
    have hbig : ¬ v ≤ 0x1f := by omega
    refine ⟨by rw [hoc, if_neg hbig], ?_⟩
    intro o lineno st ho
    have hh : ∀ li, handle_operand st.code.length li o = .ok (li, (0x1f, (v : Int))) := by
      intro li
      have := (handle_operand_numeral v num o hv hnum ho st.code.length li).1
      rw [if_neg hbig] at this
      exact this
    have hco := (handle_operand_numeral v num o hv hnum ho 0 []).2
    have hpos : ((v : Int) > 0) := by omega
    have hnn : ((v : Int) ≥ 0) := by omega
    refine ⟨?_, ?_, ?_⟩
    · intro opcode hop
      rw [emit_single lineno opcode o st _ _ hop (hh _)]
      simp only [if_pos hnn, to_u16_small v hv]
    · intro opcode other li oc hop hother
      rw [emit_basic lineno opcode o other st st.label_info li (0x1f, (v : Int)) oc hop hco
        (hh _) hother]
      simp only [if_pos hpos, to_u16_small v hv]
    · intro opcode other li oc hop hcomma hother
      rw [emit_basic lineno opcode other o st li li oc (0x1f, (v : Int)) hop hcomma
        hother (hh _)]
      simp only [if_pos hpos, to_u16_small v hv]

/-- The operands `5` and `0x1f` encode inline, and `300` and `0xffff` encode
as `0x1f` with a next word. -/
theorem literal_operand_witness :
    operand_code ['5'] = .ok (0x20 + 5, no_next_word) ∧
    operand_code ['0', 'x', '1', 'f'] = .ok (0x20 + 31, no_next_word) ∧
    operand_code ['3', '0', '0'] = .ok (0x1f, 300) ∧
    operand_code ['0', 'x', 'f', 'f', 'f', 'f'] = .ok (0x1f, 65535) :=
  ⟨(literal_operand 5 ['5'] (by decide) (Or.inl (by decide))).1 (by decide),
   (literal_operand 31 ['0', 'x', '1', 'f'] (by decide) (Or.inr (by decide))).1 (by decide),
   ((literal_operand 300 ['3', '0', '0'] (by decide) (Or.inl (by decide))).2 (by decide)).1,
   ((literal_operand 65535 ['0', 'x', 'f', 'f', 'f', 'f'] (by decide)
      (Or.inr (by decide))).2 (by decide)).1⟩

/-! ## The instruction word -/

theorem handle_operand_code_le (size : Nat) (li li1 : LabelInfo) (o : Str) (oc : Nat × Int)
    (h : handle_operand size li o = .ok (li1, oc)) : oc.1 ≤ 0x3f := by
  unfold handle_operand at h
  split at h
  · cases h
  · split at h
    · cases h
      decide
    · cases h
      omega

theorem opcodes_pos (name : Str) (k : Nat) (h : opcodes.lookup name = some k) : 1 ≤ k := by
  have hm := mem_of_lookup _ _ _ h
  simp only [opcodes, List.mem_cons, Prod.mk.injEq] at hm
  rcases hm with hm | hm | hm | hm | hm | hm | hm | hm | hm | hm | hm | hm | hm | hm | hm |
    hm | hm
  all_goals first
    | (obtain ⟨_, rfl⟩ := hm; decide)
    | (exact absurd hm (List.not_mem_nil _))

/-- The packed word of a two-operand instruction holds its three fields. -/
theorem word_fields (k c1 c2 : Nat) (hk : k ≤ 0x0f) (h1 : c1 ≤ 0x3f) (h2 : c2 ≤ 0x3f) :
    (((k ||| (c1 <<< 4)) % 65536) ||| (c2 <<< (4 + 6))) % 65536 = k + 16 * c1 + 1024 * c2 := by
  have e1 : k ||| (c1 <<< 4) = 2 ^ 4 * c1 + k := by
    rw [Nat.shiftLeft_eq, Nat.lor_comm, Nat.mul_comm]
    exact (Nat.mul_add_lt_is_or (by omega) c1).symm
  have e2 : (2 ^ 4 * c1 + k) % 65536 = 2 ^ 4 * c1 + k := Nat.mod_eq_of_lt (by omega)
  have e3 : (2 ^ 4 * c1 + k) ||| (c2 <<< (4 + 6)) = 2 ^ 10 * c2 + (2 ^ 4 * c1 + k) := by
    rw [Nat.shiftLeft_eq, Nat.lor_comm, Nat.mul_comm]
    exact (Nat.mul_add_lt_is_or (by omega) c2).symm
  rw [e1, e2, e3, Nat.mod_eq_of_lt (by omega)]
  omega

/-- C1: on a line whose mnemonic has a two-operand opcode `k` and whose two
operands `handle_operand` encodes to the codes `oc1.1` and `oc2.1` (a label
reference counting as `0x1f`), the first word the line appends to the code
buffer has `k` in its low 4 bits, `oc1.1` in bits 4..9 and `oc2.1` in bits
10..15; both codes are at most `0x3f` and `1 ≤ k`. -/
theorem instruction_word_fields (lineno : Nat) (st : State) (raw : Str) (k comma_pos : Nat)
    (li1 li2 : LabelInfo) (oc1 oc2 : Nat × Int)
    (hline : strip_comment raw ≠ [])
    (hk : opcodes.lookup (instruction_name (strip_comment raw)) = some k)
    (h2op : k ≤ 0x0f)
    (hcomma : find_first_of (operand_text (strip_comment raw)) ',' 0 = some comma_pos)
    (h1 : handle_operand st.code.length (define_line_label st (strip_comment raw))
            (substr (operand_text (strip_comment raw)) 0 comma_pos) = .ok (li1, oc1))
    (h2 : handle_operand st.code.length li1
            (substr_from (operand_text (strip_comment raw)) (comma_pos + 1)) = .ok (li2, oc2)) :
    ∃ w rest, process_line lineno st raw = .ok { code := st.code ++ w :: rest, label_info := li2 } ∧
      w < 65536 ∧ w % 16 = k ∧ w / 16 % 64 = oc1.1 ∧ w / 1024 % 64 = oc2.1 ∧
      1 ≤ k ∧ oc1.1 ≤ 0x3f ∧ oc2.1 ≤ 0x3f := by
  have hc1 := handle_operand_code_le _ _ _ _ _ h1
  have hc2 := handle_operand_code_le _ _ _ _ _ h2
  have hpos := opcodes_pos _ _ hk
  have hop : ¬ (k = 0x00 ∨ k > 0x0f) := by omega
  have hw := word_fields k oc1.1 oc2.1 h2op hc1 hc2
  refine ⟨(((k ||| (oc1.1 <<< 4)) % 65536) ||| (oc2.1 <<< (4 + 6))) % 65536,
    (if oc1.2 > 0 then [to_u16 oc1.2] else []) ++ (if oc2.2 > 0 then [to_u16 oc2.2] else []),
    ?_, ?_⟩
  · unfold process_line
    rw [if_neg hline, hk]
    simp only
    rw [emit_split lineno k _ comma_pos
      { code := st.code, label_info := define_line_label st (strip_comment raw) }
      li1 li2 oc1 oc2 hop hcomma h1 h2]
    simp
  · rw [hw]
    refine ⟨?_, ?_, ?_, ?_, hpos, hc1, hc2⟩ <;> omega

/-- The line ` set b, start` appends the word `0x7c11`: opcode 1, code 1 for
`b`, code `0x1f` for the label reference. -/
theorem instruction_word_fields_witness :
    ∃ w rest, process_line 3 { code := [0x9401], label_info := [] }
        [' ', 's', 'e', 't', ' ', 'b', ',', ' ', 's', 't', 'a', 'r', 't'] =
        .ok { code := [0x9401] ++ w :: rest,
              label_info := [(['s', 't', 'a', 'r', 't'], (-1, [2]))] } ∧
      w < 65536 ∧ w % 16 = 1 ∧ w / 16 % 64 = 1 ∧ w / 1024 % 64 = 0x1f ∧
      1 ≤ 1 ∧ 1 ≤ 0x3f ∧ 0x1f ≤ 0x3f :=
  instruction_word_fields 3 { code := [0x9401], label_info := [] }
    [' ', 's', 'e', 't', ' ', 'b', ',', ' ', 's', 't', 'a', 'r', 't'] 1 2 []
    [(['s', 't', 'a', 'r', 't'], (-1, [2]))] (1, -1) (0x1f, 0xff)
    (by decide) (by decide) (by decide) (by decide) (by decide) (by decide)

/-! ## The label table -/

theorem mem_map_insert (m : LabelInfo) (k : Str) (v : LabelEntry) (e : Str × LabelEntry) :
    e ∈ map_insert m k v ↔ e = (k, v) ∨ e ∈ m := by
  induction m with
  | nil => simp [map_insert]
  | cons x rest ih =>
    unfold map_insert
    by_cases h : str_lt k x.1 = true
    · rw [if_pos h]
      simp
    · rw [if_neg h]
      simp only [List.mem_cons, ih]
      tauto

theorem map_find_none (m : LabelInfo) (k : Str) (h : map_find m k = none) :
    ∀ e ∈ m, e.1 ≠ k := by
  induction m with
  | nil => intro e he; simp at he
  | cons x rest ih =>
    obtain ⟨k1, v1⟩ := x
    unfold map_find at h ih
    rw [List.lookup_cons] at h
    by_cases hk : k = k1
    · subst hk
      simp at h
    · have hb : (k == k1) = false := by simpa using hk
      rw [hb] at h
      intro e he
      rcases List.mem_cons.mp he with rfl | he
      · exact fun h2 => hk h2.symm
      · exact ih h e he

theorem map_find_some (m : LabelInfo) (k : Str) (v : LabelEntry) (h : map_find m k = some v) :
    (k, v) ∈ m := mem_of_lookup m k v h

theorem mem_map_modify (m : LabelInfo) (k : Str) (f : LabelEntry → LabelEntry)
    (e : Str × LabelEntry) :
    e ∈ map_modify m k f ↔ ∃ e0 ∈ m, e = if e0.1 = k then (e0.1, f e0.2) else e0 := by
  unfold map_modify
  rw [List.mem_map]
  constructor
  · rintro ⟨e0, h0, rfl⟩
    exact ⟨e0, h0, rfl⟩
  · rintro ⟨e0, h0, rfl⟩
    exact ⟨e0, h0, rfl⟩

theorem TableInv_congr (li : LabelInfo) (R D R1 D1 : Str → Prop) (hR : ∀ n, R n ↔ R1 n)
    (hD : ∀ n, D n ↔ D1 n) (h : TableInv li R D) : TableInv li R1 D1 := by
  obtain ⟨h1, h2, h3⟩ := h
  refine ⟨?_, ?_, ?_⟩
  · intro e he
    rcases h1 e he with ⟨a, b, c⟩ | ⟨a, b⟩
    · exact Or.inl ⟨a, (hR _).mp b, fun hd => c ((hD _).mpr hd)⟩
    · exact Or.inr ⟨a, (hD _).mp b⟩
  · intro n hn
    exact h2 n ((hR n).mpr hn)
  · intro n hn
    exact h3 n ((hD n).mpr hn)

/-- A label definition keeps the table in agreement. -/
theorem TableInv_define (size : Nat) (li : LabelInfo) (k : Str) (R D : Str → Prop)
    (h : TableInv li R D) : TableInv (define_label size li k) R (fun n => D n ∨ n = k) := by
  obtain ⟨h1, h2, h3⟩ := h
  have hidx : ∀ e, e ∈ map_index li k ↔ (e ∈ li ∨ (map_find li k = none ∧ e = (k, (0, [])))) := by
    intro e
    unfold map_index
    cases hf : map_find li k with
    | none => simp only [mem_map_insert]; tauto
    | some v => simp
  have hkey : ∃ e ∈ map_index li k, e.1 = k := by
    cases hf : map_find li k with
    | none => exact ⟨(k, (0, [])), (hidx _).mpr (Or.inr ⟨hf, rfl⟩), rfl⟩
    | some v => exact ⟨(k, v), (hidx _).mpr (Or.inl (map_find_some _ _ _ hf)), rfl⟩
  have hkeep : ∀ e0 ∈ map_index li k,
      (if e0.1 = k then (e0.1, (((size : Int), e0.2.2) : LabelEntry)) else e0) ∈
        define_label size li k ∧
      (if e0.1 = k then (e0.1, (((size : Int), e0.2.2) : LabelEntry)) else e0).1 = e0.1 := by
    intro e0 he0
    refine ⟨(mem_map_modify _ _ _ _).mpr ⟨e0, he0, rfl⟩, ?_⟩
    split <;> rfl
  refine ⟨?_, ?_, ?_⟩
  · intro e he
    obtain ⟨e0, he0, rfl⟩ := (mem_map_modify _ _ _ _).mp he
    by_cases hk : e0.1 = k
    · rw [if_pos hk]
      exact Or.inr ⟨by simp, Or.inr hk⟩
    · rw [if_neg hk]
      rcases (hidx e0).mp he0 with hli | ⟨_, rfl⟩
      · rcases h1 e0 hli with ⟨a, b, c⟩ | ⟨a, b⟩
        · exact Or.inl ⟨a, b, fun hd => hd.elim c hk⟩
        · exact Or.inr ⟨a, Or.inl b⟩
      · exact absurd rfl hk
  · intro n hn
    obtain ⟨e0, he0, hn0⟩ := h2 n hn
    obtain ⟨hm, hfst⟩ := hkeep e0 ((hidx e0).mpr (Or.inl he0))
    exact ⟨_, hm, hfst.trans hn0⟩
  · intro n hn
    rcases hn with hn | rfl
    · obtain ⟨e0, he0, hn0⟩ := h3 n hn
      obtain ⟨hm, hfst⟩ := hkeep e0 ((hidx e0).mpr (Or.inl he0))
      exact ⟨_, hm, hfst.trans hn0⟩
    · obtain ⟨e0, he0, hn0⟩ := hkey
      obtain ⟨hm, hfst⟩ := hkeep e0 he0
      exact ⟨_, hm, hfst.trans hn0⟩

/-- A label reference keeps the table in agreement. -/
theorem TableInv_ref (size : Nat) (li : LabelInfo) (k : Str) (R D : Str → Prop)
    (h : TableInv li R D) : TableInv (label_ref size li k) (fun n => R n ∨ n = k) D := by
  obtain ⟨h1, h2, h3⟩ := h
  have hidx : ∀ e, e ∈ (match map_find li k with
        | none => map_insert li k (-1, [])
        | some _ => li) ↔ (e ∈ li ∨ (map_find li k = none ∧ e = (k, (-1, [])))) := by
    intro e
    cases hf : map_find li k with
    | none => simp only [mem_map_insert]; tauto
    | some v => simp
  have hkey : ∃ e ∈ (match map_find li k with
        | none => map_insert li k (-1, [])
        | some _ => li), e.1 = k := by
    rcases Option.eq_none_or_eq_some (map_find li k) with hf | ⟨v, hf⟩
    · exact ⟨(k, (-1, [])), (hidx _).mpr (Or.inr ⟨hf, rfl⟩), rfl⟩
    · exact ⟨(k, v), (hidx _).mpr (Or.inl (map_find_some _ _ _ hf)), rfl⟩
  have hkeep : ∀ e0 ∈ (match map_find li k with
        | none => map_insert li k (-1, [])
        | some _ => li),
      (if e0.1 = k then (e0.1, ((e0.2.1, e0.2.2 ++ [size + 1]) : LabelEntry)) else e0) ∈
        label_ref size li k ∧
      (if e0.1 = k then (e0.1, ((e0.2.1, e0.2.2 ++ [size + 1]) : LabelEntry)) else e0).1 = e0.1 ∧
      (if e0.1 = k then (e0.1, ((e0.2.1, e0.2.2 ++ [size + 1]) : LabelEntry)) else e0).2.1
        = e0.2.1 := by
    intro e0 he0
    refine ⟨(mem_map_modify _ _ _ _).mpr ⟨e0, he0, rfl⟩, ?_, ?_⟩
    · split <;> rfl
    · split <;> rfl
  refine ⟨?_, ?_, ?_⟩
  · intro e he
    obtain ⟨e0, he0, rfl⟩ := (mem_map_modify _ _ _ _).mp he
    obtain ⟨_, hfst, hsnd⟩ := hkeep e0 he0
    rw [hfst, hsnd]
    rcases (hidx e0).mp he0 with hli | ⟨hnone, rfl⟩
    · rcases h1 e0 hli with ⟨a, b, c⟩ | ⟨a, b⟩
      · exact Or.inl ⟨a, Or.inl b, c⟩
      · exact Or.inr ⟨a, b⟩
    · refine Or.inl ⟨rfl, Or.inr rfl, ?_⟩
      intro hd
      obtain ⟨e1, he1, hk1⟩ := h3 k hd
      exact map_find_none li k hnone e1 he1 hk1
  · intro n hn
    rcases hn with hn | rfl
    · obtain ⟨e0, he0, hn0⟩ := h2 n hn
      obtain ⟨hm, hfst, _⟩ := hkeep e0 ((hidx e0).mpr (Or.inl he0))
      exact ⟨_, hm, hfst.trans hn0⟩
    · obtain ⟨e0, he0, hn0⟩ := hkey
      obtain ⟨hm, hfst, _⟩ := hkeep e0 he0
      exact ⟨_, hm, hfst.trans hn0⟩
  · intro n hn
    obtain ⟨e0, he0, hn0⟩ := h3 n hn
    obtain ⟨hm, hfst, _⟩ := hkeep e0 ((hidx e0).mpr (Or.inl he0))
    exact ⟨_, hm, hfst.trans hn0⟩

theorem TableInv_refs (size : Nat) (names : List Str) :
    ∀ (li : LabelInfo) (R D : Str → Prop), TableInv li R D →
      TableInv (names.foldl (label_ref size) li) (fun n => R n ∨ n ∈ names) D := by
  induction names with
  | nil =>
    intro li R D h
    exact TableInv_congr li R D _ _ (by simp) (fun _ => Iff.rfl) h
  | cons k rest ih =>
    intro li R D h
    have := ih _ _ _ (TableInv_ref size li k R D h)
    rw [List.foldl_cons]
    refine TableInv_congr _ _ _ _ _ ?_ (fun _ => Iff.rfl) this
    intro n
    simp only [List.mem_cons]
    tauto

/-! ## Label references of a line -/

theorem handle_operand_label_info (size : Nat) (li li1 : LabelInfo) (o : Str) (oc : Nat × Int)
    (h : handle_operand size li o = .ok (li1, oc)) :
    li1 = (operand_label o).toList.foldl (label_ref size) li := by
  unfold handle_operand at h
  unfold operand_label
  cases hoc : operand_code (to_lower (trim o)) with
  | error e => rw [hoc] at h; cases h
  | ok c =>
    rw [hoc] at h
    simp only at h ⊢
    by_cases hc : c.1 > 0x3f
    · rw [if_pos hc] at h ⊢
      cases h
      rfl
    · rw [if_neg hc] at h ⊢
      cases h
      rfl

theorem emit_label_info (lineno opcode : Nat) (tmp : Str) (st st1 : State)
    (h : emit lineno opcode tmp st = .ok st1) :
    st1.label_info = (emit_refs opcode tmp).foldl (label_ref st.code.length) st.label_info := by
  unfold emit at h
  unfold emit_refs
  by_cases hop : opcode = 0x00 ∨ opcode > 0x0f
  · rw [if_pos hop] at h ⊢
    cases hh : handle_operand st.code.length st.label_info tmp with
    | error e => rw [hh] at h; cases h
    | ok r =>
      obtain ⟨li, oc⟩ := r
      rw [hh] at h
      cases h
      exact handle_operand_label_info _ _ _ _ _ hh
  · rw [if_neg hop] at h ⊢
    cases hf : find_first_of tmp ',' 0 with
    | none => rw [hf] at h; cases h
    | some comma_pos =>
      rw [hf] at h
      simp only at h ⊢
      cases hh1 : handle_operand st.code.length st.label_info (substr tmp 0 comma_pos) with
      | error e => rw [hh1] at h; cases h
      | ok r1 =>
        obtain ⟨li1, oc1⟩ := r1
        rw [hh1] at h
        simp only at h
        cases hh2 : handle_operand st.code.length li1 (substr_from tmp (comma_pos + 1)) with
        | error e => rw [hh2] at h; cases h
        | ok r2 =>
          obtain ⟨li2, oc2⟩ := r2
          rw [hh2] at h
          cases h
          simp only
          rw [List.foldl_append, ← handle_operand_label_info _ _ _ _ _ hh1,
            ← handle_operand_label_info _ _ _ _ _ hh2]

/-- The label table after a line: the definition first, then the references
in order. -/
theorem process_line_label_info (lineno : Nat) (st st1 : State) (raw : Str)
    (h : process_line lineno st raw = .ok st1) :
    st1.label_info =
      (line_refs raw).foldl (label_ref st.code.length)
        (match line_def raw with
         | some k => define_label st.code.length st.label_info k
         | none => st.label_info) := by
  unfold process_line at h
  unfold line_refs line_def
  by_cases hl : strip_comment raw = []
  · rw [if_pos hl] at h ⊢
    cases h
    simp [hl]
  · rw [if_neg hl] at h ⊢
    rw [if_neg hl]
    cases hop : opcodes.lookup (instruction_name (strip_comment raw)) with
    | none => rw [hop] at h; cases h
    | some opcode =>
      rw [hop] at h
      simp only at h ⊢
      have := emit_label_info _ _ _ _ _ h
      rw [this]
      rfl

theorem TableInv_process_line (lineno : Nat) (st st1 : State) (raw : Str) (R D : Str → Prop)
    (hinv : TableInv st.label_info R D) (h : process_line lineno st raw = .ok st1) :
    TableInv st1.label_info (fun n => R n ∨ n ∈ line_refs raw)
      (fun n => D n ∨ line_def raw = some n) := by
  rw [process_line_label_info lineno st st1 raw h]
  apply TableInv_refs
  cases hd : line_def raw with
  | none =>
    simp only
    exact TableInv_congr _ _ _ _ _ (fun _ => Iff.rfl) (by simp) hinv
  | some k =>
    simp only
    refine TableInv_congr _ _ _ _ _ (fun _ => Iff.rfl) ?_ (TableInv_define _ _ k R D hinv)
    intro n
    simp only [Option.some.injEq]
    constructor
    · rintro (h1 | h1)
      · exact Or.inl h1
      · exact Or.inr h1.symm
    · rintro (h1 | h1)
      · exact Or.inl h1
      · exact Or.inr h1.symm

theorem TableInv_run_lines :
    ∀ (lines : List Str) (lineno : Nat) (st st1 : State) (R D : Str → Prop),
      TableInv st.label_info R D → run_lines lineno st lines = .ok st1 →
      TableInv st1.label_info (fun n => R n ∨ ∃ raw ∈ lines, n ∈ line_refs raw)
        (fun n => D n ∨ ∃ raw ∈ lines, line_def raw = some n) := by
  intro lines
  induction lines with
  | nil =>
    intro lineno st st1 R D hinv h
    unfold run_lines at h
    cases h
    exact TableInv_congr _ _ _ _ _ (by simp) (by simp) hinv
  | cons raw rest ih =>
    intro lineno st st1 R D hinv h
    unfold run_lines at h
    cases hp : process_line (lineno + 1) st raw with
    | error e => rw [hp] at h; cases h
    | ok st2 =>
      rw [hp] at h
      simp only at h
      have h2 := ih (lineno + 1) st2 st1 _ _ (TableInv_process_line _ _ _ _ R D hinv hp) h
      refine TableInv_congr _ _ _ _ _ ?_ ?_ h2
      · intro n
        simp only [List.mem_cons, exists_eq_or_imp]
        tauto
      · intro n
        simp only [List.mem_cons, exists_eq_or_imp]
        tauto

/-! ## Resolution -/

theorem resolve_undefined :
    ∀ (li : LabelInfo) (code : List Nat), (∃ e ∈ li, e.2.1 = -1) →
      ∃ e ∈ li, e.2.1 = -1 ∧
        resolve li code = .error { kind := .UndefinedLabel e.1, line := none } := by
  intro li
  induction li with
  | nil => intro code h; obtain ⟨e, he, _⟩ := h; cases he
  | cons x rest ih =>
    intro code h
    obtain ⟨name, address, sites⟩ := x
    by_cases ha : address = -1
    · refine ⟨(name, (address, sites)), List.mem_cons_self _ _, ha, ?_⟩
      unfold resolve
      rw [if_pos ha]
      rfl
    · have hrest : ∃ e ∈ rest, e.2.1 = -1 := by
        obtain ⟨e, he, h1⟩ := h
        rcases List.mem_cons.mp he with rfl | he
        · exact absurd h1 ha
        · exact ⟨e, he, h1⟩
      obtain ⟨e, he, h1, h2⟩ := ih (patch code address sites) hrest
      refine ⟨e, List.mem_cons_of_mem _ he, h1, ?_⟩
      unfold resolve
      rw [if_neg ha]
      exact h2

theorem resolve_defined :
    ∀ (li : LabelInfo) (code : List Nat), (∀ e ∈ li, e.2.1 ≠ -1) →
      ∃ out, resolve li code = .ok out := by
  intro li
  induction li with
  | nil => intro code _; exact ⟨code, rfl⟩
  | cons x rest ih =>
    intro code h
    obtain ⟨name, address, sites⟩ := x
    have ha : address ≠ -1 := h (name, (address, sites)) (List.mem_cons_self _ _)
    obtain ⟨out, hout⟩ := ih (patch code address sites)
      (fun e he => h e (List.mem_cons_of_mem _ he))
    refine ⟨out, ?_⟩
    unfold resolve
    rw [if_neg ha]
    exact hout

/-- C5: for an input all of whose lines are processed without error: if some
referenced label (the trimmed, lower-cased operand text) is defined by no
line, `assemble` fails with `UndefinedLabel` naming a label that is
referenced and defined by no line, with no line number, and so yields no
output words; and if every referenced label is defined by some line,
`assemble` yields output words. -/
theorem undefined_label_report (lines : List Str) (st : State)
    (hrun : run_lines 0 { code := [], label_info := [] } lines = .ok st) :
    ((∃ n, (∃ raw ∈ lines, n ∈ line_refs raw) ∧ ¬ (∃ raw ∈ lines, line_def raw = some n)) →
      ∃ n, (∃ raw ∈ lines, n ∈ line_refs raw) ∧ ¬ (∃ raw ∈ lines, line_def raw = some n) ∧
        assemble lines = .error { kind := .UndefinedLabel n, line := none }) ∧
    ((∀ n, (∃ raw ∈ lines, n ∈ line_refs raw) → ∃ raw ∈ lines, line_def raw = some n) →
      ∃ out, assemble lines = .ok out) := by
  have hinit : TableInv ({ code := [], label_info := [] } : State).label_info
      (fun _ => False) (fun _ => False) := by
    refine ⟨?_, ?_, ?_⟩
    · intro e he; cases he
    · intro n hn; exact hn.elim
    · intro n hn; exact hn.elim
  obtain ⟨h1, h2, h3⟩ := TableInv_run_lines lines 0 _ st _ _ hinit hrun
  have hasm : assemble lines = resolve st.label_info st.code := by
    unfold assemble
    rw [hrun]
  constructor
  · rintro ⟨n, href, hdef⟩
    obtain ⟨e0, he0, hn0⟩ := h2 n (Or.inr href)
    have hund : e0.2.1 = -1 := by
      rcases h1 e0 he0 with ⟨a, _, _⟩ | ⟨_, b⟩
      · exact a
      · rw [hn0] at b
        rcases b with b | b
        · exact b.elim
        · exact absurd b hdef
    obtain ⟨e, he, hm1, hres⟩ := resolve_undefined st.label_info st.code ⟨e0, he0, hund⟩
    rcases h1 e he with ⟨_, b, c⟩ | ⟨a, _⟩
    · refine ⟨e.1, ?_, ?_, ?_⟩
      · rcases b with b | b
        · exact b.elim
        · exact b
      · intro hd
        exact c (Or.inr hd)
      · rw [hasm]
        exact hres
    · omega
  · intro hall
    rw [hasm]
    apply resolve_defined
    intro e he
    rcases h1 e he with ⟨_, b, c⟩ | ⟨a, _⟩
    · exfalso
      rcases b with b | b
      · exact b
      · exact c (Or.inr (hall _ b))
    · omega

/-- The input `jsr zz` / `:aa set zz, aa` fails naming `zz`, the input
`jsr aa` / `:aa set a, aa` assembles, and so does `set a, 0xg`, whose operand
`0xg` is the literal 0 and no label reference. -/
theorem undefined_label_report_witness :
    (∃ n, (∃ raw ∈ ["jsr zz".toList, ":aa set zz, aa".toList], n ∈ line_refs raw) ∧
        ¬ (∃ raw ∈ ["jsr zz".toList, ":aa set zz, aa".toList], line_def raw = some n) ∧
        assemble ["jsr zz".toList, ":aa set zz, aa".toList] =
          .error { kind := .UndefinedLabel n, line := none }) ∧
    (∃ out, assemble ["jsr aa".toList, ":aa set a, aa".toList] = .ok out) ∧
    (∃ out, assemble ["set a, 0xg".toList] = .ok out) :=
  ⟨(undefined_label_report ["jsr zz".toList, ":aa set zz, aa".toList]
      { code := [0x7c10, 0xff, 0x7df1, 0xff, 0xff],
        label_info := [("aa".toList, (2, [3])), ("zz".toList, (-1, [1, 3]))] }
      (by decide)).1
      ⟨"zz".toList, ⟨"jsr zz".toList, by simp, by decide⟩, by decide⟩,
   (undefined_label_report ["jsr aa".toList, ":aa set a, aa".toList]
      { code := [0x7c10, 0xff, 0x7c01, 0xff], label_info := [("aa".toList, (2, [1, 3]))] }
      (by decide)).2
      (fun n h => by
        have hdef : line_def ":aa set a, aa".toList = some "aa".toList := by decide
        have h1 : line_refs "jsr aa".toList = ["aa".toList] := by decide
        have h2 : line_refs ":aa set a, aa".toList = ["aa".toList] := by decide
        obtain ⟨raw, hraw, hn⟩ := h
        simp only [List.mem_cons, List.mem_singleton, List.not_mem_nil, or_false] at hraw
        have hn2 : n = "aa".toList := by
          rcases hraw with rfl | rfl
          · rw [h1] at hn
            exact List.mem_singleton.mp hn
          · rw [h2] at hn
            exact List.mem_singleton.mp hn
        subst hn2
        exact ⟨":aa set a, aa".toList, by simp, hdef⟩),
   (undefined_label_report ["set a, 0xg".toList] { code := [0x8001], label_info := [] }
      (by decide)).2
      (fun n h => by
        have h1 : line_refs "set a, 0xg".toList = [] := by decide
        obtain ⟨raw, hraw, hn⟩ := h
        simp only [List.mem_singleton] at hraw
        subst hraw
        rw [h1] at hn
        cases hn)⟩

/-! ## Evaluations of the assembler on concrete inputs -/

/-- C2: the two-operand path appends an operand's next word only when it is
greater than 0.  The line `set [0], a` appends the single word `0x01e1` and
`set [0+a], [0]` the single word `0x7901`, although `[0]` and `[0+a]` encode
with the next word 0; the single-operand path does append it: `jsr [0]`
appends `0x7810, 0`. -/
theorem zero_next_word_not_appended :
    operand_code "[0]".toList = .ok (0x1e, 0) ∧
    operand_code "[0+a]".toList = .ok (0x10, 0) ∧
    process_line 1 { code := [], label_info := [] } "set [0], a".toList =
      .ok { code := [0x01e1], label_info := [] } ∧
    process_line 1 { code := [], label_info := [] } "set [0+a], [0]".toList =
      .ok { code := [0x7901], label_info := [] } ∧
    process_line 1 { code := [], label_info := [] } "set [1], a".toList =
      .ok { code := [0x01e1, 1], label_info := [] } ∧
    process_line 1 { code := [], label_info := [] } "jsr [0]".toList =
      .ok { code := [0x7810, 0], label_info := [] } := by
  decide

/-- C3: a label reference always records the site one past the instruction
word.  In `set [0x1000], target` / `:target set a, b` the placeholder of the
second operand is the word at index 2, the recorded site is 1, and after
resolution index 1 (the next word of `[0x1000]`) holds the address 3 of
`target` while index 2 still holds the placeholder `0xff`. -/
theorem second_operand_label_site :
    run_lines 0 { code := [], label_info := [] }
        ["set [0x1000], target".toList, ":target set a, b".toList] =
      .ok { code := [0x7de1, 0x1000, 0xff, 0x0401],
            label_info := [("target".toList, (3, [1]))] } ∧
    assemble ["set [0x1000], target".toList, ":target set a, b".toList] =
      .ok [0x7de1, 3, 0xff, 0x0401] ∧
    assemble ["set one, two".toList, ":one set a, b".toList, ":two set a, b".toList] =
      .ok [0x7df1, 4, 0xff, 0x0401, 0x0401] := by
  decide

/-- C4, as stated, fails: the three-line input `:start`, ` set a, 5`,
` set b, start` does not assemble; its first line has no mnemonic and is
reported as an invalid instruction on line 1. -/
theorem label_only_line_rejected :
    assemble [":start".toList, " set a, 5".toList, " set b, start".toList] =
      .error { kind := .InvalidInstruction, line := some 1 } ∧
    ¬ ∃ out, assemble [":start".toList, " set a, 5".toList, " set b, start".toList] = .ok out := by
  constructor
  · decide
  · rintro ⟨out, h⟩
    have h2 : assemble [":start".toList, " set a, 5".toList, " set b, start".toList] =
        .error { kind := .InvalidInstruction, line := some 1 } := by decide
    rw [h2] at h
    cases h

/-- C4, amended: the three-line input `:start`, ` set a, 5`, ` set b, start`
fails with `InvalidInstruction` on line 1; with the definition on the line
of the first instruction, the input `:start set a, 5`, ` set b, start`
assembles to the three words `0x9401, 0x7c11, 0`, whose last word is the slot
generated for the second operand of the last line (the only recorded site of
`start`, index 2), and it holds 0, the address of `start`. -/
theorem label_on_instruction_line :
    assemble [":start".toList, " set a, 5".toList, " set b, start".toList] =
      .error (error_die .InvalidInstruction 1) ∧
    run_lines 0 { code := [], label_info := [] }
        [":start set a, 5".toList, " set b, start".toList] =
      .ok { code := [0x9401, 0x7c11, 0xff], label_info := [("start".toList, (0, [2]))] } ∧
    assemble [":start set a, 5".toList, " set b, start".toList] = .ok [0x9401, 0x7c11, 0] := by
  decide

/-! ## Per-line errors -/

theorem error_die_line (e : ErrorKind) (lineno : Nat) (h : 1 ≤ lineno) :
    error_die e lineno = { kind := e, line := some lineno } := by
  unfold error_die
  rw [if_pos (by omega)]
  simp

theorem lookup_eq_none {β : Type} :
    ∀ (l : List (Str × β)) (k : Str), (∀ e ∈ l, e.1 ≠ k) → l.lookup k = none := by
  intro l
  induction l with
  | nil => intro k _; rfl
  | cons e rest ih =>
    intro k h
    obtain ⟨k1, v1⟩ := e
    rw [List.lookup_cons]
    have hk : k ≠ k1 := fun hk => h (k1, v1) (List.mem_cons_self _ _) hk.symm
    have hb : (k == k1) = false := by simpa using hk
    rw [hb]
    exact ih k (fun e he => h e (List.mem_cons_of_mem _ he))

/-- The loop stops at the first line that fails. -/
theorem run_lines_error_at :
    ∀ (pre : List Str) (lineno : Nat) (st st1 : State) (raw : Str) (post : List Str)
      (e : Report), run_lines lineno st pre = .ok st1 →
      process_line (lineno + pre.length + 1) st1 raw = .error e →
      run_lines lineno st (pre ++ raw :: post) = .error e := by
  intro pre
  induction pre with
  | nil =>
    intro lineno st st1 raw post e h1 h2
    unfold run_lines at h1
    cases h1
    simp only [List.nil_append, List.length_nil, Nat.add_zero] at h2 ⊢
    unfold run_lines
    rw [h2]
  | cons x rest ih =>
    intro lineno st st1 raw post e h1 h2
    unfold run_lines at h1
    cases hp : process_line (lineno + 1) st x with
    | error e1 => rw [hp] at h1; cases h1
    | ok st2 =>
      rw [hp] at h1
      simp only at h1
      have hlen : lineno + 1 + rest.length + 1 = lineno + (x :: rest).length + 1 := by
        simp only [List.length_cons]
        omega
      have := ih (lineno + 1) st2 st1 raw post e h1 (hlen ▸ h2)
      simp only [List.cons_append]
      unfold run_lines
      rw [hp]
      exact this

theorem assemble_error_at (pre post : List Str) (raw : Str) (st1 : State) (e : Report)
    (hpre : run_lines 0 { code := [], label_info := [] } pre = .ok st1)
    (hline : process_line (pre.length + 1) st1 raw = .error e) :
    assemble (pre ++ raw :: post) = .error e := by
  have h := run_lines_error_at pre 0 _ st1 raw post e hpre (by simpa using hline)
  unfold assemble
  rw [h]

/-- The only errors `operand_code` throws. -/
theorem operand_code_errors (s : Str) (e : ErrorKind) (h : operand_code s = .error e) :
    e = .ExpectedRegister ∨ e = .InvalidLiteral := by
  unfold operand_code at h
  split at h
  · cases h
  · split at h
    · split at h
      · simp only at h
        split at h
        · cases h; exact Or.inl rfl
        · split at h
          · cases h; exact Or.inl rfl
          · split at h
            · cases h; exact Or.inl rfl
            · split at h
              · cases h; exact Or.inr rfl
              · cases h
      · simp only at h
        split at h
        · cases h; exact Or.inr rfl
        · cases h
    · split at h
      · split at h <;> cases h
      · cases h

theorem handle_operand_errors (size : Nat) (li : LabelInfo) (o : Str) (e : ErrorKind)
    (h : handle_operand size li o = .error e) :
    e = .ExpectedRegister ∨ e = .InvalidLiteral := by
  unfold handle_operand at h
  cases hoc : operand_code (to_lower (trim o)) with
  | error e1 =>
    rw [hoc] at h
    cases h
    exact operand_code_errors _ _ hoc
  | ok oc =>
    rw [hoc] at h
    simp only at h
    split at h <;> cases h

/-- C11: a line with a two-operand mnemonic (opcode `k ≤ 0x0f`) whose operand
text holds no comma fails with `MissingOperandSeparator` from every state;
as line `pre.length + 1` of an input whose earlier lines were processed
without error it makes `assemble` fail with that error and that 1-based line
number, and the line references no label. -/
theorem missing_separator (pre post : List Str) (raw : Str) (st1 : State) (k : Nat)
    (hpre : run_lines 0 { code := [], label_info := [] } pre = .ok st1)
    (hline : strip_comment raw ≠ [])
    (hk : opcodes.lookup (instruction_name (strip_comment raw)) = some k)
    (h2op : k ≤ 0x0f)
    (hcomma : ',' ∉ operand_text (strip_comment raw)) :
    (∀ (lineno : Nat) (st : State),
      process_line lineno st raw = .error (error_die .MissingOperandSeparator lineno)) ∧
    assemble (pre ++ raw :: post) =
      .error { kind := .MissingOperandSeparator, line := some (pre.length + 1) } ∧
    line_refs raw = [] := by
  have hpos := opcodes_pos _ _ hk
  have hop : ¬ (k = 0x00 ∨ k > 0x0f) := by omega
  have hf : find_first_of (operand_text (strip_comment raw)) ',' 0 = none :=
    find_first_of_none _ _ _ (by simpa using hcomma)
  have hproc : ∀ (lineno : Nat) (st : State),
      process_line lineno st raw = .error (error_die .MissingOperandSeparator lineno) := by
    intro lineno st
    unfold process_line
    rw [if_neg hline, hk]
    simp only
    unfold emit
    rw [if_neg hop, hf]
  refine ⟨hproc, ?_, ?_⟩
  · apply assemble_error_at pre post raw st1 _ hpre
    rw [hproc, error_die_line _ _ (by omega)]
  · unfold line_refs
    rw [if_neg hline, hk]
    simp only
    unfold emit_refs
    rw [if_neg hop, hf]

/-- The line `set a`, as third line after a blank line and a comment line,
fails with `MissingOperandSeparator` on line 3. -/
theorem missing_separator_witness :
    process_line 3 { code := [], label_info := [] } "set a".toList =
      .error (error_die .MissingOperandSeparator 3) ∧
    assemble (["".toList, "; note".toList] ++ "set a".toList :: ["set a, b".toList]) =
      .error { kind := .MissingOperandSeparator,
               line := some (["".toList, "; note".toList].length + 1) } ∧
    line_refs "set a".toList = [] :=
  ⟨(missing_separator ["".toList, "; note".toList] ["set a, b".toList] "set a".toList
      { code := [], label_info := [] } 1 (by decide) (by decide) (by decide) (by decide)
      (by decide)).1 3 { code := [], label_info := [] },
   (missing_separator ["".toList, "; note".toList] ["set a, b".toList] "set a".toList
      { code := [], label_info := [] } 1 (by decide) (by decide) (by decide) (by decide)
      (by decide)).2⟩

/-- C12, as stated, fails: the line `set a, b, c` is processed without error,
its second operand being a reference to a label named `b, c`, so that the
one-line input fails with `UndefinedLabel` and not with
`MissingOperandSeparator`; and the input `set a, 1, 2` assembles to the word
`0x8401`. -/
theorem extra_comma_not_rejected :
    process_line 1 { code := [], label_info := [] } "set a, b, c".toList =
      .ok { code := [0x7c01, 0xff], label_info := [("b, c".toList, (-1, [1]))] } ∧
    assemble ["set a, b, c".toList] =
      .error { kind := .UndefinedLabel "b, c".toList, line := none } ∧
    assemble ["set a, 1, 2".toList] = .ok [0x8401] := by
  decide

/-- C12, amended: on a line with a two-operand mnemonic whose operand text
is `op1,op2` with no comma in `op1`, the whole of `op2`, further commas
included, is the second operand: the line has the outcome of encoding `op1`
and `op2` with `handle_operand`, and a failure is `ExpectedRegister` or
`InvalidLiteral`, never `MissingOperandSeparator`. -/
theorem extra_comma_second_operand (lineno : Nat) (st : State) (raw : Str) (k : Nat)
    (op1 op2 : Str)
    (hline : strip_comment raw ≠ [])
    (hk : opcodes.lookup (instruction_name (strip_comment raw)) = some k)
    (h2op : k ≤ 0x0f)
    (htext : operand_text (strip_comment raw) = op1 ++ ',' :: op2)
    (hc : ',' ∉ op1) :
    process_line lineno st raw =
      (match handle_operand st.code.length (define_line_label st (strip_comment raw)) op1 with
       | .error e => .error (error_die e lineno)
       | .ok (li1, oc1) =>
         match handle_operand st.code.length li1 op2 with
         | .error e => .error (error_die e lineno)
         | .ok (li2, oc2) =>
           .ok { code := st.code ++
                     [(((k ||| (oc1.1 <<< 4)) % 65536) ||| (oc2.1 <<< (4 + 6))) % 65536] ++
                     (if oc1.2 > 0 then [to_u16 oc1.2] else []) ++
                     (if oc2.2 > 0 then [to_u16 oc2.2] else []),
                 label_info := li2 }) ∧
    ∀ e, process_line lineno st raw = .error e →
      e.kind = .ExpectedRegister ∨ e.kind = .InvalidLiteral := by
  have hpos := opcodes_pos _ _ hk
  have hop : ¬ (k = 0x00 ∨ k > 0x0f) := by omega
  obtain ⟨hf, hs1, hs2⟩ := split_at_comma op1 op2 hc
  have hproc : process_line lineno st raw =
      (match handle_operand st.code.length (define_line_label st (strip_comment raw)) op1 with
       | .error e => .error (error_die e lineno)
       | .ok (li1, oc1) =>
         match handle_operand st.code.length li1 op2 with
         | .error e => .error (error_die e lineno)
         | .ok (li2, oc2) =>
           .ok { code := st.code ++
                     [(((k ||| (oc1.1 <<< 4)) % 65536) ||| (oc2.1 <<< (4 + 6))) % 65536] ++
                     (if oc1.2 > 0 then [to_u16 oc1.2] else []) ++
                     (if oc2.2 > 0 then [to_u16 oc2.2] else []),
                 label_info := li2 }) := by
    unfold process_line
    rw [if_neg hline, hk]
    simp only
    unfold emit
    rw [if_neg hop, htext, hf]
    simp only [hs1, hs2]
  refine ⟨hproc, ?_⟩
  intro e he
  rw [hproc] at he
  cases h1 : handle_operand st.code.length (define_line_label st (strip_comment raw)) op1 with
  | error e1 =>
    rw [h1] at he
    cases he
    exact handle_operand_errors _ _ _ _ h1
  | ok r1 =>
    obtain ⟨li1, oc1⟩ := r1
    rw [h1] at he
    simp only at he
    cases h2 : handle_operand st.code.length li1 op2 with
    | error e2 =>
      rw [h2] at he
      cases he
      exact handle_operand_errors _ _ _ _ h2
    | ok r2 =>
      obtain ⟨li2, oc2⟩ := r2
      rw [h2] at he
      cases he

/-- The line `set a, b, c` has the outcome of encoding ` a` and ` b, c`. -/
theorem extra_comma_second_operand_witness :
    process_line 1 { code := [], label_info := [] } "set a, b, c".toList =
      (match handle_operand ({ code := [], label_info := [] } : State).code.length
          (define_line_label { code := [], label_info := [] } (strip_comment "set a, b, c".toList))
          " a".toList with
       | .error e => .error (error_die e 1)
       | .ok (li1, oc1) =>
         match handle_operand ({ code := [], label_info := [] } : State).code.length li1
             " b, c".toList with
         | .error e => .error (error_die e 1)
         | .ok (li2, oc2) =>
           .ok { code := ({ code := [], label_info := [] } : State).code ++
                     [(((1 ||| (oc1.1 <<< 4)) % 65536) ||| (oc2.1 <<< (4 + 6))) % 65536] ++
                     (if oc1.2 > 0 then [to_u16 oc1.2] else []) ++
                     (if oc2.2 > 0 then [to_u16 oc2.2] else []),
                 label_info := li2 }) :=
  (extra_comma_second_operand 1 { code := [], label_info := [] } "set a, b, c".toList 1
    " a".toList " b, c".toList (by decide) (by decide) (by decide) (by decide) (by decide)).1

/-- C13: when the lines `pre` are processed without error and the next line
`raw` is not blank after comment stripping and its mnemonic token (the token
after the optional `:label` token, lower-cased) is none of the sixteen
mnemonics, `assemble` fails with `InvalidInstruction` and the line number
`pre.length + 1`, which counts every line of `pre`, blank and comment-only
lines included. -/
theorem invalid_instruction_line (pre post : List Str) (raw : Str) (st1 : State)
    (hpre : run_lines 0 { code := [], label_info := [] } pre = .ok st1)
    (hline : strip_comment raw ≠ [])
    (hname : instruction_name (strip_comment raw) ∉
      [['s', 'e', 't'], ['a', 'd', 'd'], ['s', 'u', 'b'], ['m', 'u', 'l'], ['d', 'i', 'v'],
       ['m', 'o', 'd'], ['s', 'h', 'l'], ['s', 'h', 'r'], ['a', 'n', 'd'], ['b', 'o', 'r'],
       ['x', 'o', 'r'], ['i', 'f', 'e'], ['i', 'f', 'n'], ['i', 'f', 'g'], ['i', 'f', 'b'],
       ['j', 's', 'r']]) :
    assemble (pre ++ raw :: post) =
      .error { kind := .InvalidInstruction, line := some (pre.length + 1) } := by
  have hl : opcodes.lookup (instruction_name (strip_comment raw)) = none := by
    apply lookup_eq_none
    intro e he heq
    apply hname
    rw [← heq]
    simp only [opcodes, List.mem_cons, List.mem_singleton] at he
    rcases he with he | he | he | he | he | he | he | he | he | he | he | he | he | he | he |
      he | he
    all_goals first
      | (rw [he]; decide)
      | (exact absurd he (List.not_mem_nil _))
  apply assemble_error_at pre post raw st1 _ hpre
  unfold process_line
  rw [if_neg hline, hl]
  simp only
  rw [error_die_line _ _ (by omega)]

/-- The line `:loop mov a, b`, third line after a blank line and a comment
line, fails with `InvalidInstruction` on line 3. -/
theorem invalid_instruction_line_witness :
    assemble (["".toList, "  ; note".toList] ++ ":loop mov a, b".toList :: ["set a, b".toList]) =
      .error { kind := .InvalidInstruction,
               line := some (["".toList, "  ; note".toList].length + 1) } :=
  invalid_instruction_line ["".toList, "  ; note".toList] ["set a, b".toList]
    ":loop mov a, b".toList { code := [], label_info := [] } (by decide) (by decide) (by decide)

/-! ## The single-operand instruction -/

theorem get_literal_value_range (s : Str) :
    get_literal_value s = -1 ∨ (0 ≤ get_literal_value s ∧ get_literal_value s ≤ 65535) := by
  unfold get_literal_value
  split
  · exact Or.inl rfl
  · split
    · rename_i h
      exact Or.inr h
    · exact Or.inl rfl

/-- The next word `operand_code` returns is `-1` or a 16-bit value. -/
theorem operand_code_next_word (s : Str) (oc : Nat × Int) (h : operand_code s = .ok oc) :
    oc.2 = no_next_word ∨ (0 ≤ oc.2 ∧ oc.2 ≤ 65535) := by
  unfold operand_code at h
  split at h
  · cases h; exact Or.inl rfl
  · split at h
    · split at h
      · simp only at h
        split at h
        · cases h
        · split at h
          · cases h
          · split at h
            · cases h
            · split at h
              · cases h
              · rename_i hlit
                cases h
                rcases get_literal_value_range
                  (trim (substr s 1 (_ - 1))) with hr | hr
                · rw [hr] at hlit; exact absurd (by decide) hlit
                · exact Or.inr hr
      · simp only at h
        split at h
        · cases h
        · rename_i hlit
          cases h
          rcases get_literal_value_range (trim (substr s 1 (s.length - 2))) with hr | hr
          · rw [hr] at hlit; exact absurd (by decide) hlit
          · exact Or.inr hr
    · split at h
      · split at h
        · cases h; exact Or.inl rfl
        · cases h
          rcases get_literal_value_range s with hr | hr
          · rename_i hge _
            rw [hr] at hge
            exact absurd hge (by decide)
          · exact Or.inr hr
      · cases h; exact Or.inl rfl

theorem handle_operand_next_word (size : Nat) (li li1 : LabelInfo) (o : Str) (oc : Nat × Int)
    (h : handle_operand size li o = .ok (li1, oc)) :
    oc.2 = no_next_word ∨ (0 ≤ oc.2 ∧ oc.2 ≤ 65535) := by
  unfold handle_operand at h
  cases hoc : operand_code (to_lower (trim o)) with
  | error e => rw [hoc] at h; cases h
  | ok c =>
    rw [hoc] at h
    simp only at h
    split at h
    · cases h
      exact Or.inr (by decide)
    · cases h
      exact operand_code_next_word _ _ hoc

theorem jsr_word (c : Nat) (hc : c ≤ 0x3f) :
    (0x10 ||| (c <<< (4 + 6))) % 65536 = 0x10 + 1024 * c := by
  have e1 : 0x10 ||| (c <<< (4 + 6)) = 2 ^ 10 * c + 0x10 := by
    rw [Nat.shiftLeft_eq, Nat.lor_comm, Nat.mul_comm]
    exact (Nat.mul_add_lt_is_or (by omega) c).symm
  rw [e1, Nat.mod_eq_of_lt (by omega)]
  omega

/-- C16: on a `jsr` line whose operand text (the whole rest of the line)
`handle_operand` encodes to `oc` (a label reference counting as code `0x1f`
with the placeholder as next word), the words appended are the word
`0x10 + 1024 * oc.1`, whose low 4 bits are 0, whose bits 4..9 are 1 and
whose top 6 bits are the code, followed by the next word exactly when the
operand has one (`oc.2` is not `-1`), a next word 0 included. -/
theorem jsr_words (lineno : Nat) (st : State) (raw : Str) (li : LabelInfo) (oc : Nat × Int)
    (hline : strip_comment raw ≠ [])
    (hname : instruction_name (strip_comment raw) = ['j', 's', 'r'])
    (h : handle_operand st.code.length (define_line_label st (strip_comment raw))
          (operand_text (strip_comment raw)) = .ok (li, oc)) :
    process_line lineno st raw =
      .ok { code := st.code ++ (0x10 + 1024 * oc.1) ::
                      (if oc.2 = no_next_word then [] else [oc.2.toNat]),
            label_info := li } ∧
    (0x10 + 1024 * oc.1) % 16 = 0 ∧ (0x10 + 1024 * oc.1) / 16 % 64 = 1 ∧
    (0x10 + 1024 * oc.1) / 1024 = oc.1 ∧ 0x10 + 1024 * oc.1 < 65536 ∧
    0x10 + 1024 * oc.1 = 0x0010 ||| (oc.1 <<< 10) ∧
    (oc.2 = no_next_word ∨ (0 ≤ oc.2 ∧ oc.2 ≤ 65535)) := by
  have hc := handle_operand_code_le _ _ _ _ _ h
  have hnw := handle_operand_next_word _ _ _ _ _ h
  have hw := jsr_word oc.1 hc
  have hk : opcodes.lookup (instruction_name (strip_comment raw)) = some 0x10 := by
    rw [hname]; decide
  refine ⟨?_, by omega, by omega, by omega, by omega, ?_, hnw⟩
  · unfold process_line
    rw [if_neg hline, hk]
    simp only
    rw [emit_single lineno 0x10 _
      { code := st.code, label_info := define_line_label st (strip_comment raw) } li oc
      (Or.inr (by decide)) h, hw]
    rcases hnw with hn | ⟨h0, h1⟩
    · rw [hn]
      simp [no_next_word]
    · have hne : oc.2 ≠ no_next_word := by
        unfold no_next_word
        omega
      have hu : to_u16 oc.2 = oc.2.toNat := by
        unfold to_u16
        omega
      rw [if_pos h0, if_neg hne, hu]
      simp
  · have := jsr_word oc.1 hc
    have e1 : 0x10 ||| (oc.1 <<< (4 + 6)) = 2 ^ 10 * oc.1 + 0x10 := by
      rw [Nat.shiftLeft_eq, Nat.lor_comm, Nat.mul_comm]
      exact (Nat.mul_add_lt_is_or (by omega) oc.1).symm
    show 0x10 + 1024 * oc.1 = 0x10 ||| (oc.1 <<< (4 + 6))
    rw [e1]
    omega

/-- The lines `jsr [0]`, `jsr a` and `jsr sub` append `0x7810, 0`, then
`0x0010`, then `0x7c10, 0xff`. -/
theorem jsr_words_witness :
    process_line 1 { code := [], label_info := [] } "jsr [0]".toList =
      .ok { code := [] ++ (0x10 + 1024 * 0x1e) :: (if (0 : Int) = no_next_word then [] else [0]),
            label_info := [] } ∧
    process_line 1 { code := [], label_info := [] } "jsr a".toList =
      .ok { code := [] ++ (0x10 + 1024 * 0) :: (if (-1 : Int) = no_next_word then [] else [0]),
            label_info := [] } ∧
    process_line 1 { code := [], label_info := [] } "jsr sub".toList =
      .ok { code := [] ++ (0x10 + 1024 * 0x1f) ::
                      (if (0xff : Int) = no_next_word then [] else [0xff]),
            label_info := [("sub".toList, (-1, [1]))] } :=
  ⟨(jsr_words 1 { code := [], label_info := [] } "jsr [0]".toList [] (0x1e, 0)
      (by decide) (by decide) (by decide)).1,
   (jsr_words 1 { code := [], label_info := [] } "jsr a".toList [] (0, -1)
      (by decide) (by decide) (by decide)).1,
   (jsr_words 1 { code := [], label_info := [] } "jsr sub".toList
      [("sub".toList, (-1, [1]))] (0x1f, 0xff) (by decide) (by decide) (by decide)).1⟩

/-! ## The literal parser on arbitrary text -/

/-- A digit of base 10 or 16 is no white space, sign or `x`. -/
theorem is_digit_facts (b : Nat) (c : Char) (h : is_digit b c = true) :
    isspace c = false ∧ c ≠ '-' ∧ c ≠ '+' ∧ c ≠ 'x' ∧ c ≠ 'X' := by
  have hr : (48 ≤ c.toNat ∧ c.toNat ≤ 57) ∨ (97 ≤ c.toNat ∧ c.toNat ≤ 102) ∨
      (65 ≤ c.toNat ∧ c.toNat ≤ 70) := by
    unfold is_digit digit_value at h
    by_cases h1 : 48 ≤ c.toNat ∧ c.toNat ≤ 57
    · exact Or.inl h1
    · rw [if_neg h1] at h
      by_cases h2 : b = 16 ∧ 97 ≤ c.toNat ∧ c.toNat ≤ 102
      · exact Or.inr (Or.inl h2.2)
      · rw [if_neg h2] at h
        by_cases h3 : b = 16 ∧ 65 ≤ c.toNat ∧ c.toNat ≤ 70
        · exact Or.inr (Or.inr h3.2)
        · rw [if_neg h3] at h
          simp at h
  have hc : c = Char.ofNat c.toNat := (Char.ofNat_toNat c).symm
  generalize c.toNat = n at hc hr
  subst hc
  rcases hr with ⟨h1, h2⟩ | ⟨h1, h2⟩ | ⟨h1, h2⟩ <;> interval_cases n <;> decide

theorem takeWhile_digits_append (b : Nat) (t : Str)
    (ht : ∀ c, t.head? = some c → is_digit b c = false) :
    ∀ ds : Str, (∀ c ∈ ds, is_digit b c = true) → (ds ++ t).takeWhile (is_digit b) = ds := by
  intro ds
  induction ds with
  | nil =>
    intro _
    cases t with
    | nil => rfl
    | cons x xs =>
      simp only [List.nil_append]
      rw [List.takeWhile_cons, if_neg (by simp [ht x rfl])]
  | cons x xs ih =>
    intro hall
    simp only [List.cons_append]
    rw [List.takeWhile_cons, if_pos (hall x (List.mem_cons_self _ _)),
      ih (fun c hc => hall c (List.mem_cons_of_mem _ hc))]

/-- The `%u` conversion of text that starts with a run of decimal digits. -/
theorem sscanf_dec_leading (ds t : Str) (hne : ds ≠ [])
    (hall : ∀ c ∈ ds, is_digit 10 c = true)
    (ht : ∀ c, t.head? = some c → is_digit 10 c = false) :
    sscanf_unsigned 10 (ds ++ t) =
      some ((if 2 ^ 64 ≤ digits_value 10 ds then 2 ^ 64 - 1 else digits_value 10 ds) % 2 ^ 32) := by
  cases ds with
  | nil => exact absurd rfl hne
  | cons c r =>
    obtain ⟨hsp, hm, hp, _⟩ := is_digit_facts 10 c (hall c (by simp))
    have h1 : ((c :: r) ++ t).dropWhile isspace = (c :: r) ++ t := by
      simp only [List.cons_append]
      rw [List.dropWhile_cons, if_neg (by simp [hsp])]
    have h2 : strip_sign ((c :: r) ++ t) = (false, (c :: r) ++ t) := by
      simp only [List.cons_append]
      unfold strip_sign
      simp only
      rw [if_neg hm, if_neg hp]
    unfold sscanf_unsigned
    simp only [h1, h2, strip_0x_ten, takeWhile_digits_append 10 t ht (c :: r) hall]
    rw [if_neg (by simp)]
    simp

/-- The `%x` conversion of `0x` and text that starts with a run, possibly
empty, of hexadecimal digits. -/
theorem sscanf_hex_leading (ds t : Str)
    (hall : ∀ c ∈ ds, is_digit 16 c = true)
    (ht : ∀ c, t.head? = some c → is_digit 16 c = false) :
    sscanf_unsigned 16 ('0' :: 'x' :: (ds ++ t)) =
      some ((if 2 ^ 64 ≤ digits_value 16 ds then 2 ^ 64 - 1 else digits_value 16 ds) % 2 ^ 32) := by
  have h1 : ('0' :: 'x' :: (ds ++ t)).dropWhile isspace = '0' :: 'x' :: (ds ++ t) := by
    rw [List.dropWhile_cons, if_neg (by decide)]
  have h2 : strip_sign ('0' :: 'x' :: (ds ++ t)) = (false, '0' :: 'x' :: (ds ++ t)) := by
    unfold strip_sign
    simp only
    rw [if_neg (by decide), if_neg (by decide)]
  have h3 : strip_0x 16 ('0' :: 'x' :: (ds ++ t)) = ('0' :: ds) ++ t := by
    unfold strip_0x
    simp
  have hall0 : ∀ c ∈ '0' :: ds, is_digit 16 c = true := by
    intro c hc
    rcases List.mem_cons.mp hc with rfl | hc
    · decide
    · exact hall c hc
  unfold sscanf_unsigned
  simp only [h1, h2, h3, takeWhile_digits_append 16 t ht ('0' :: ds) hall0]
  rw [if_neg (by simp), digits_value_zero]
  simp

theorem to_int32_range (n : Nat) (hn : n < 2 ^ 32) :
    (if 0 ≤ to_int32 ((if 2 ^ 64 ≤ n then 2 ^ 64 - 1 else n) % 2 ^ 32) ∧
        to_int32 ((if 2 ^ 64 ≤ n then 2 ^ 64 - 1 else n) % 2 ^ 32) ≤ 65535
      then to_int32 ((if 2 ^ 64 ≤ n then 2 ^ 64 - 1 else n) % 2 ^ 32) else -1) =
      if n ≤ 65535 then (n : Int) else -1 := by
  have h1 : ¬ (2 ^ 64 ≤ n) := by omega
  rw [if_neg h1, Nat.mod_eq_of_lt hn]
  unfold to_int32
  by_cases h31 : n < 2 ^ 31
  · rw [if_pos h31]
    by_cases hs : n ≤ 65535
    · rw [if_pos ⟨by omega, by omega⟩, if_pos hs]
    · rw [if_neg (by omega), if_neg hs]
  · rw [if_neg h31, if_neg (by omega), if_neg (by omega)]

/-- A `0x` that no hexadecimal digit follows is the literal 0: `0x` and `0xg`
parse as 0, `[0x]` is the indirect literal 0, the operand `0xg` is the
inline literal 0 and no label reference, and the lines `set a, 0xg` and
`:0xg set a, 0xg` assemble to the word `0x8001`. -/
theorem hex_marker_without_digits :
    get_literal_value "0x".toList = 0 ∧ get_literal_value "0xg".toList = 0 ∧
    operand_code "[0x]".toList = .ok (0x1e, 0) ∧
    operand_code "0xg".toList = .ok (0x20, no_next_word) ∧
    operand_label "0xg".toList = none ∧
    assemble ["set a, 0xg".toList] = .ok [0x8001] ∧
    assemble [":0xg set a, 0xg".toList] = .ok [0x8001] := by
  decide

/-- C15, as stated, fails: `get_literal_value` returns 5 for `5abc` and for
`+5`, 12 for `12 34`, 31 for `0x1fz` and 0 for `0xg`, none of which is a
numeral as a whole. -/
theorem literal_with_trailing_text :
    get_literal_value "5abc".toList = 5 ∧ get_literal_value "+5".toList = 5 ∧
    get_literal_value "12 34".toList = 12 ∧ get_literal_value "0x1fz".toList = 31 ∧
    get_literal_value "0xg".toList = 0 ∧
    operand_code "5abc".toList = .ok (0x25, no_next_word) := by
  decide

/-- C15, amended: for a text that starts with a run `ds` of digits of base
`b` (after `0x` when `b = 16`; non-empty when `b = 10`, possibly empty when
`b = 16`) followed by `t`, which does not start with a digit, and whose run
denotes a value below `2 ^ 32`, `get_literal_value` returns that value when
it is at most 65535 and `-1` otherwise, whatever `t` is (the whole-string
numeral is `t = []`, and `0x` with no digit after it gives 0); it returns
`-1` for the empty string and for a string whose first character is no
decimal digit, white space or sign. -/
theorem literal_leading_numeral (b : Nat) (ds t : Str) (hb : b = 10 ∨ b = 16)
    (hne : b = 10 → ds ≠ []) (hall : ∀ c ∈ ds, is_digit b c = true)
    (ht : ∀ c, t.head? = some c → is_digit b c = false)
    (hlt : digits_value b ds < 2 ^ 32)
    (h0x : b = 10 → substr (ds ++ t) 0 2 ≠ ['0', 'x']) :
    get_literal_value ((if b = 16 then ['0', 'x'] else []) ++ (ds ++ t)) =
      (if digits_value b ds ≤ 65535 then (digits_value b ds : Int) else -1) ∧
    get_literal_value [] = -1 ∧
    (∀ (c : Char) (r : Str), isspace c = false → c ≠ '+' → c ≠ '-' → is_digit 10 c = false →
      get_literal_value (c :: r) = -1) := by
  refine ⟨?_, by decide, ?_⟩
  · rcases hb with rfl | rfl
    · simp only [show ¬ ((10 : Nat) = 16) by decide, if_false, List.nil_append]
      unfold get_literal_value
      rw [if_neg (h0x rfl), sscanf_dec_leading ds t (hne rfl) hall ht]
      simp only
      exact to_int32_range _ hlt
    · simp only [if_true, List.cons_append, List.nil_append]
      have hs : substr ('0' :: 'x' :: (ds ++ t)) 0 2 = ['0', 'x'] := by simp [substr]
      unfold get_literal_value
      rw [if_pos hs, sscanf_hex_leading ds t hall ht]
      simp only
      exact to_int32_range _ hlt
  · intro c r hsp hp hm hd
    have hc0 : c ≠ '0' := by
      intro h0
      subst h0
      revert hd
      decide
    have hs : substr (c :: r) 0 2 ≠ ['0', 'x'] := by
      intro h
      unfold substr at h
      cases r with
      | nil => simp at h
      | cons x xs =>
        simp at h
        exact hc0 h.1
    have h1 : (c :: r).dropWhile isspace = c :: r := by
      rw [List.dropWhile_cons, if_neg (by simp [hsp])]
    have h2 : strip_sign (c :: r) = (false, c :: r) := by
      unfold strip_sign
      simp only
      rw [if_neg hm, if_neg hp]
    have h3 : (c :: r).takeWhile (is_digit 10) = [] := by
      rw [List.takeWhile_cons, if_neg (by simp [hd])]
    have hsc : sscanf_unsigned 10 (c :: r) = none := by
      unfold sscanf_unsigned
      simp only [h1, h2, strip_0x_ten, h3]
      rfl
    unfold get_literal_value
    rw [if_neg hs, hsc]

/-- The texts `300`, `70000`, `0xFFFF`, `5abc`, `0xg` and `0x` give 300,
`-1`, 65535, 5, 0 and 0. -/
theorem literal_leading_numeral_witness :
    get_literal_value ((if 10 = 16 then ['0', 'x'] else []) ++ (['3', '0', '0'] ++ [])) =
      (if digits_value 10 ['3', '0', '0'] ≤ 65535 then
        (digits_value 10 ['3', '0', '0'] : Int) else -1) ∧
    get_literal_value ((if 10 = 16 then ['0', 'x'] else []) ++ (['7', '0', '0', '0', '0'] ++ [])) =
      (if digits_value 10 ['7', '0', '0', '0', '0'] ≤ 65535 then
        (digits_value 10 ['7', '0', '0', '0', '0'] : Int) else -1) ∧
    get_literal_value ((if 16 = 16 then ['0', 'x'] else []) ++ (['F', 'F', 'F', 'F'] ++ [])) =
      (if digits_value 16 ['F', 'F', 'F', 'F'] ≤ 65535 then
        (digits_value 16 ['F', 'F', 'F', 'F'] : Int) else -1) ∧
    get_literal_value ((if 10 = 16 then ['0', 'x'] else []) ++ (['5'] ++ ['a', 'b', 'c'])) =
      (if digits_value 10 ['5'] ≤ 65535 then (digits_value 10 ['5'] : Int) else -1) ∧
    get_literal_value ((if 16 = 16 then ['0', 'x'] else []) ++ ([] ++ ['g'])) =
      (if digits_value 16 [] ≤ 65535 then (digits_value 16 [] : Int) else -1) ∧
    get_literal_value ((if 16 = 16 then ['0', 'x'] else []) ++ ([] ++ [])) =
      (if digits_value 16 [] ≤ 65535 then (digits_value 16 [] : Int) else -1) :=
  ⟨(literal_leading_numeral 10 ['3', '0', '0'] [] (Or.inl rfl) (by decide) (by decide)
      (by decide) (by decide) (by decide)).1,
   (literal_leading_numeral 10 ['7', '0', '0', '0', '0'] [] (Or.inl rfl) (by decide) (by decide)
      (by decide) (by decide) (by decide)).1,
   (literal_leading_numeral 16 ['F', 'F', 'F', 'F'] [] (Or.inr rfl) (by decide) (by decide)
      (by decide) (by decide) (by decide)).1,
   (literal_leading_numeral 10 ['5'] ['a', 'b', 'c'] (Or.inl rfl) (by decide) (by decide)
      (by decide) (by decide) (by decide)).1,
   (literal_leading_numeral 16 [] ['g'] (Or.inr rfl) (by decide) (by decide)
      (by decide) (by decide) (by decide)).1,
   (literal_leading_numeral 16 [] [] (Or.inr rfl) (by decide) (by decide)
      (by decide) (by decide) (by decide)).1⟩

/-! ## Fixup sites, comments and blank lines -/

/-- C17: the recorded site is always the index right after the instruction
word.  After `set 32, lbl` the only site of `lbl` is 1, where the buffer
holds the next word 32 of the first operand, while the placeholder `0xff`
is at index 2; after `set one, two` the references to `one` and to `two`
both have site 1; resolution of `:one set one, two` / `:two set a, b` writes
index 1 twice and index 2 never. -/
theorem fixup_site_not_placeholder :
    run_lines 0 { code := [], label_info := [] } ["set 32, lbl".toList] =
      .ok { code := [0x7df1, 32, 0xff], label_info := [("lbl".toList, (-1, [1]))] } ∧
    run_lines 0 { code := [], label_info := [] } ["set one, two".toList] =
      .ok { code := [0x7df1, 0xff, 0xff],
            label_info := [("one".toList, (-1, [1])), ("two".toList, (-1, [1]))] } ∧
    run_lines 0 { code := [], label_info := [] }
        [":one set one, two".toList, ":two set a, b".toList] =
      .ok { code := [0x7df1, 0xff, 0xff, 0x0401],
            label_info := [("one".toList, (0, [1])), ("two".toList, (3, [1]))] } ∧
    assemble [":one set one, two".toList, ":two set a, b".toList] =
      .ok [0x7df1, 3, 0xff, 0x0401] := by
  decide

theorem process_line_congr (lineno : Nat) (st : State) (raw1 raw2 : Str)
    (h : strip_comment raw1 = strip_comment raw2) :
    process_line lineno st raw1 = process_line lineno st raw2 := by
  unfold process_line
  rw [h]

theorem strip_comment_comment (L C : Str) (hL : ';' ∉ L) :
    strip_comment (L ++ ';' :: C) = trim L ∧ strip_comment L = trim L := by
  constructor
  · unfold strip_comment
    rw [find_first_of_split L C ';' hL]
    simp [substr]
  · unfold strip_comment
    rw [find_first_of_none L ';' 0 (by simpa using hL)]

theorem trim_blank (W : Str) (hW : ∀ c ∈ W, isspace c = true) : trim W = [] := by
  have h1 : W.reverse.dropWhile isspace = [] := by
    rw [List.dropWhile_eq_nil_iff]
    intro c hc
    exact hW c (List.mem_reverse.mp hc)
  unfold trim trim_right trim_left
  rw [h1]
  rfl

/-- C18: for a text `L` without `;` and any text `C`, the line `L;C` has the
same outcome as the line `L` from every state and with every line number;
and a line that is only white space `W` (possibly empty), alone or followed
by `;` and a comment, returns the state unchanged. -/
theorem comment_and_blank_lines (L C W : Str) (hL : ';' ∉ L)
    (hW : ∀ c ∈ W, isspace c = true) :
    (∀ (lineno : Nat) (st : State),
      process_line lineno st (L ++ ';' :: C) = process_line lineno st L) ∧
    (∀ (lineno : Nat) (st : State),
      process_line lineno st W = .ok st ∧ process_line lineno st (W ++ ';' :: C) = .ok st) := by
  have hWs : ';' ∉ W := by
    intro h
    have := hW _ h
    revert this
    decide
  constructor
  · intro lineno st
    apply process_line_congr
    rw [(strip_comment_comment L C hL).1, (strip_comment_comment L C hL).2]
  · intro lineno st
    have h1 : strip_comment W = [] := by
      rw [(strip_comment_comment W C hWs).2, trim_blank W hW]
    have h2 : strip_comment (W ++ ';' :: C) = [] := by
      rw [(strip_comment_comment W C hWs).1, trim_blank W hW]
    constructor
    · unfold process_line
      rw [if_pos h1]
    · unfold process_line
      rw [if_pos h2]

/-- The lines ` set a, [0x10+i] ; copy` and ` set a, [0x10+i] ` have the same
outcome, and a line of two blanks followed by a comment changes nothing. -/
theorem comment_and_blank_lines_witness :
    process_line 2 { code := [7], label_info := [] }
        (" set a, [0x10+i] ".toList ++ ';' :: " copy".toList) =
      process_line 2 { code := [7], label_info := [] } " set a, [0x10+i] ".toList ∧
    process_line 2 { code := [7], label_info := [] } ("  ".toList ++ ';' :: " copy".toList) =
      .ok { code := [7], label_info := [] } :=
  ⟨(comment_and_blank_lines " set a, [0x10+i] ".toList " copy".toList "  ".toList
      (by decide) (by decide)).1 2 { code := [7], label_info := [] },
   ((comment_and_blank_lines " set a, [0x10+i] ".toList " copy".toList "  ".toList
      (by decide) (by decide)).2 2 { code := [7], label_info := [] }).2⟩

/-! ## Fixup sites are indices of the code buffer -/

theorem define_label_sites (size : Nat) (li : LabelInfo) (k : Str) :
    ∀ e ∈ define_label size li k, ∀ s ∈ e.2.2, ∃ e0 ∈ li, s ∈ e0.2.2 := by
  intro e he s hs
  obtain ⟨e0, he0, rfl⟩ := (mem_map_modify _ _ _ _).mp he
  have hs0 : s ∈ e0.2.2 := by
    by_cases hk : e0.1 = k
    · rw [if_pos hk] at hs; exact hs
    · rw [if_neg hk] at hs; exact hs
  unfold map_index at he0
  cases hf : map_find li k with
  | some v =>
    rw [hf] at he0
    exact ⟨e0, he0, hs0⟩
  | none =>
    rw [hf] at he0
    simp only at he0
    rcases (mem_map_insert _ _ _ _).mp he0 with rfl | h
    · simp at hs0
    · exact ⟨e0, h, hs0⟩

theorem label_ref_sites (size : Nat) (li : LabelInfo) (k : Str) :
    ∀ e ∈ label_ref size li k, ∀ s ∈ e.2.2, (∃ e0 ∈ li, s ∈ e0.2.2) ∨ s = size + 1 := by
  intro e he s hs
  obtain ⟨e0, he0, rfl⟩ := (mem_map_modify _ _ _ _).mp he
  have hs0 : s ∈ e0.2.2 ∨ s = size + 1 := by
    by_cases hk : e0.1 = k
    · rw [if_pos hk] at hs
      simp only [List.mem_append, List.mem_singleton] at hs
      exact hs
    · rw [if_neg hk] at hs
      exact Or.inl hs
  rcases hs0 with hs0 | hs0
  · rcases Option.eq_none_or_eq_some (map_find li k) with hf | ⟨v, hf⟩
    · rw [hf] at he0
      simp only at he0
      rcases (mem_map_insert _ _ _ _).mp he0 with rfl | h
      · simp at hs0
      · exact Or.inl ⟨e0, h, hs0⟩
    · rw [hf] at he0
      exact Or.inl ⟨e0, he0, hs0⟩
  · exact Or.inr hs0

theorem label_refs_sites (size : Nat) (names : List Str) :
    ∀ (li : LabelInfo), ∀ e ∈ names.foldl (label_ref size) li, ∀ s ∈ e.2.2,
      (∃ e0 ∈ li, s ∈ e0.2.2) ∨ (s = size + 1 ∧ names ≠ []) := by
  induction names with
  | nil =>
    intro li e he s hs
    exact Or.inl ⟨e, he, hs⟩
  | cons k rest ih =>
    intro li e he s hs
    rw [List.foldl_cons] at he
    rcases ih _ e he s hs with ⟨e1, he1, hs1⟩ | ⟨h, _⟩
    · rcases label_ref_sites size li k e1 he1 s hs1 with h | h
      · exact Or.inl h
      · exact Or.inr ⟨h, by simp⟩
    · exact Or.inr ⟨h, by simp⟩

/-- An operand that is a label reference gets the placeholder as next word. -/
theorem handle_operand_label (size : Nat) (li li1 : LabelInfo) (o : Str) (oc : Nat × Int)
    (h : handle_operand size li o = .ok (li1, oc)) (hl : operand_label o ≠ none) :
    oc = (0x1f, 0xff) := by
  unfold handle_operand at h
  unfold operand_label at hl
  cases hoc : operand_code (to_lower (trim o)) with
  | error e => rw [hoc] at h; cases h
  | ok c =>
    rw [hoc] at h hl
    simp only at h hl
    by_cases hc : c.1 > 0x3f
    · rw [if_pos hc] at h
      cases h
      rfl
    · rw [if_neg hc] at hl
      exact absurd rfl hl

/-- A line that emits appends at least one word, and at least two when it
references a label. -/
theorem emit_code_length (lineno opcode : Nat) (tmp : Str) (st st1 : State)
    (h : emit lineno opcode tmp st = .ok st1) :
    st.code.length + 1 ≤ st1.code.length ∧
      (emit_refs opcode tmp ≠ [] → st.code.length + 2 ≤ st1.code.length) := by
  unfold emit at h
  unfold emit_refs
  by_cases hop : opcode = 0x00 ∨ opcode > 0x0f
  · rw [if_pos hop] at h ⊢
    cases hh : handle_operand st.code.length st.label_info tmp with
    | error e => rw [hh] at h; cases h
    | ok r =>
      obtain ⟨li, oc⟩ := r
      rw [hh] at h
      cases h
      constructor
      · simp only [List.length_append, List.length_singleton]
        omega
      · intro hne
        have hl : operand_label tmp ≠ none := by
          intro hn
          rw [hn] at hne
          exact hne rfl
        have := handle_operand_label _ _ _ _ _ hh hl
        subst this
        simp
  · rw [if_neg hop] at h ⊢
    cases hf : find_first_of tmp ',' 0 with
    | none => rw [hf] at h; cases h
    | some comma_pos =>
      rw [hf] at h
      simp only at h ⊢
      cases hh1 : handle_operand st.code.length st.label_info (substr tmp 0 comma_pos) with
      | error e => rw [hh1] at h; cases h
      | ok r1 =>
        obtain ⟨li1, oc1⟩ := r1
        rw [hh1] at h
        simp only at h
        cases hh2 : handle_operand st.code.length li1 (substr_from tmp (comma_pos + 1)) with
        | error e => rw [hh2] at h; cases h
        | ok r2 =>
          obtain ⟨li2, oc2⟩ := r2
          rw [hh2] at h
          cases h
          constructor
          · simp only [List.length_append, List.length_singleton]
            omega
          · intro hne
            by_cases hl1 : operand_label (substr tmp 0 comma_pos) = none
            · have hl2 : operand_label (substr_from tmp (comma_pos + 1)) ≠ none := by
                intro hn
                rw [hl1, hn] at hne
                exact hne rfl
              have := handle_operand_label _ _ _ _ _ hh2 hl2
              subst this
              simp only [List.length_append, List.length_singleton]
              simp
            · have := handle_operand_label _ _ _ _ _ hh1 hl1
              subst this
              simp only [List.length_append, List.length_singleton]
              simp

/-- One line: new sites are the buffer length at the start of the line plus
one, and a line with a label reference appends at least two words. -/
theorem process_line_sites (lineno : Nat) (st st1 : State) (raw : Str)
    (h : process_line lineno st raw = .ok st1) :
    (∀ e ∈ st1.label_info, ∀ s ∈ e.2.2,
      (∃ e0 ∈ st.label_info, s ∈ e0.2.2) ∨ (s = st.code.length + 1 ∧ line_refs raw ≠ [])) ∧
    st.code.length ≤ st1.code.length ∧
    (line_refs raw ≠ [] → st.code.length + 2 ≤ st1.code.length) := by
  have hli := process_line_label_info lineno st st1 raw h
  refine ⟨?_, ?_⟩
  · intro e he s hs
    rw [hli] at he
    rcases label_refs_sites _ _ _ e he s hs with ⟨e1, he1, hs1⟩ | h2
    · left
      cases hd : line_def raw with
      | none =>
        rw [hd] at he1
        exact ⟨e1, he1, hs1⟩
      | some k =>
        rw [hd] at he1
        exact define_label_sites _ _ _ e1 he1 s hs1
    · exact Or.inr h2
  · unfold process_line at h
    unfold line_refs
    by_cases hl : strip_comment raw = []
    · rw [if_pos hl] at h ⊢
      cases h
      exact ⟨le_refl _, fun hne => absurd rfl hne⟩
    · rw [if_neg hl] at h ⊢
      cases hop : opcodes.lookup (instruction_name (strip_comment raw)) with
      | none => rw [hop] at h; cases h
      | some opcode =>
        rw [hop] at h
        simp only at h ⊢
        have := emit_code_length _ _ _ _ _ h
        simp only at this
        exact ⟨by omega, this.2⟩

theorem SitesInv_process_line (lineno : Nat) (st st1 : State) (raw : Str)
    (hinv : SitesInv st) (h : process_line lineno st raw = .ok st1) : SitesInv st1 := by
  obtain ⟨h1, h2, h3⟩ := process_line_sites lineno st st1 raw h
  intro e he s hs
  rcases h1 e he s hs with ⟨e0, he0, hs0⟩ | ⟨hs1, hne⟩
  · have := hinv e0 he0 s hs0
    omega
  · have := h3 hne
    omega

theorem SitesInv_run_lines :
    ∀ (lines : List Str) (lineno : Nat) (st st1 : State), SitesInv st →
      run_lines lineno st lines = .ok st1 → SitesInv st1 := by
  intro lines
  induction lines with
  | nil =>
    intro lineno st st1 hinv h
    unfold run_lines at h
    cases h
    exact hinv
  | cons raw rest ih =>
    intro lineno st st1 hinv h
    unfold run_lines at h
    cases hp : process_line (lineno + 1) st raw with
    | error e => rw [hp] at h; cases h
    | ok st2 =>
      rw [hp] at h
      exact ih (lineno + 1) st2 st1 (SitesInv_process_line _ _ _ _ hinv hp) h

theorem patch_length (address : Int) (sites : List Nat) :
    ∀ code : List Nat, (patch code address sites).length = code.length := by
  induction sites with
  | nil => intro code; rfl
  | cons s rest ih =>
    intro code
    unfold patch at ih ⊢
    rw [List.foldl_cons, ih, List.length_set]

theorem resolve_length :
    ∀ (li : LabelInfo) (code out : List Nat), resolve li code = .ok out →
      out.length = code.length := by
  intro li
  induction li with
  | nil =>
    intro code out h
    unfold resolve at h
    cases h
    rfl
  | cons x rest ih =>
    intro code out h
    obtain ⟨name, address, sites⟩ := x
    unfold resolve at h
    by_cases ha : address = -1
    · rw [if_pos ha] at h
      cases h
    · rw [if_neg ha] at h
      rw [ih _ _ h, patch_length]

/-- C20: after an input all of whose lines are processed without error,
every fixup site in the label table is less than the length of the code
buffer, and the resolution pass keeps that length, so every patch
`code[loc] = address` is in bounds; on each line a newly recorded site is
the buffer length at the start of the line plus one, and a line that
references a label appends at least two words. -/
theorem fixup_sites_in_bounds (lines : List Str) (st : State)
    (hrun : run_lines 0 { code := [], label_info := [] } lines = .ok st) :
    (∀ e ∈ st.label_info, ∀ s ∈ e.2.2, s < st.code.length) ∧
    (∀ out, resolve st.label_info st.code = .ok out → out.length = st.code.length) ∧
    (∀ (lineno : Nat) (st0 st1 : State) (raw : Str), process_line lineno st0 raw = .ok st1 →
      (∀ e ∈ st1.label_info, ∀ s ∈ e.2.2,
        (∃ e0 ∈ st0.label_info, s ∈ e0.2.2) ∨ (s = st0.code.length + 1 ∧ line_refs raw ≠ [])) ∧
      st0.code.length ≤ st1.code.length ∧
      (line_refs raw ≠ [] → st0.code.length + 2 ≤ st1.code.length)) := by
  refine ⟨?_, ?_, ?_⟩
  · have hinit : SitesInv { code := [], label_info := [] } := by
      intro e he
      cases he
    exact SitesInv_run_lines lines 0 _ st hinit hrun
  · intro out h
    exact resolve_length _ _ _ h
  · intro lineno st0 st1 raw h
    exact process_line_sites lineno st0 st1 raw h

/-- After `set 32, lbl` / `:lbl jsr lbl` the sites 1 and 4 of `lbl` are below
the buffer length 5. -/
theorem fixup_sites_in_bounds_witness :
    1 < [0x7df1, 32, 0xff, 0x7c10, 0xff].length ∧ 4 < [0x7df1, 32, 0xff, 0x7c10, 0xff].length :=
  ⟨(fixup_sites_in_bounds ["set 32, lbl".toList, ":lbl jsr lbl".toList]
      { code := [0x7df1, 32, 0xff, 0x7c10, 0xff], label_info := [("lbl".toList, (3, [1, 4]))] }
      (by decide)).1 ("lbl".toList, (3, [1, 4])) (List.mem_singleton.mpr rfl) 1 (by decide),
   (fixup_sites_in_bounds ["set 32, lbl".toList, ":lbl jsr lbl".toList]
      { code := [0x7df1, 32, 0xff, 0x7c10, 0xff], label_info := [("lbl".toList, (3, [1, 4]))] }
      (by decide)).1 ("lbl".toList, (3, [1, 4])) (List.mem_singleton.mpr rfl) 4 (by decide)⟩

/-! ## Case folding -/

theorem toLower_upper (c : Char) (h : 65 ≤ c.toNat ∧ c.toNat ≤ 90) :
    97 ≤ (Char.toLower c).toNat ∧ (Char.toLower c).toNat ≤ 122 := by
  have hc : c = Char.ofNat c.toNat := (Char.ofNat_toNat c).symm
  generalize c.toNat = n at hc h
  subst hc
  obtain ⟨h1, h2⟩ := h
  interval_cases n <;> decide

theorem toLower_not_upper (c : Char) (h : ¬ (65 ≤ c.toNat ∧ c.toNat ≤ 90)) :
    Char.toLower c = c := by
  unfold Char.toLower
  simp only
  rw [if_neg (by simpa using h)]

/-- Lower-casing reaches a character that is no letter only from itself. -/
theorem toLower_eq_iff (c d : Char) (hd : ¬ (65 ≤ d.toNat ∧ d.toNat ≤ 90))
    (hd2 : ¬ (97 ≤ d.toNat ∧ d.toNat ≤ 122)) : Char.toLower c = d ↔ c = d := by
  by_cases hc : 65 ≤ c.toNat ∧ c.toNat ≤ 90
  · have hl := toLower_upper c hc
    constructor
    · intro h
      rw [h] at hl
      exact absurd hl hd2
    · intro h
      rw [h] at hc
      exact absurd hc hd
  · rw [toLower_not_upper c hc]

theorem toLower_idem (c : Char) : Char.toLower (Char.toLower c) = Char.toLower c := by
  by_cases hc : 65 ≤ c.toNat ∧ c.toNat ≤ 90
  · have hl := toLower_upper c hc
    exact toLower_not_upper _ (by omega)
  · rw [toLower_not_upper c hc, toLower_not_upper c hc]

theorem to_lower_idem (s : Str) : to_lower (to_lower s) = to_lower s := by
  unfold to_lower
  rw [List.map_map]
  apply List.map_congr_left
  intro c _
  exact toLower_idem c

theorem isspace_toLower (c : Char) : isspace (Char.toLower c) = isspace c := by
  by_cases hc : 65 ≤ c.toNat ∧ c.toNat ≤ 90
  · have hcc : c = Char.ofNat c.toNat := (Char.ofNat_toNat c).symm
    generalize c.toNat = n at hcc hc
    subst hcc
    obtain ⟨h1, h2⟩ := hc
    interval_cases n <;> decide
  · rw [toLower_not_upper c hc]

theorem to_lower_dropWhile (p : Char → Bool) (hp : ∀ c, p (Char.toLower c) = p c) (s : Str) :
    (to_lower s).dropWhile p = to_lower (s.dropWhile p) := by
  unfold to_lower
  rw [List.dropWhile_map]
  have : p ∘ Char.toLower = p := funext hp
  rw [this]

theorem to_lower_takeWhile (p : Char → Bool) (hp : ∀ c, p (Char.toLower c) = p c) (s : Str) :
    (to_lower s).takeWhile p = to_lower (s.takeWhile p) := by
  unfold to_lower
  rw [List.takeWhile_map]
  have : p ∘ Char.toLower = p := funext hp
  rw [this]

theorem to_lower_trim (s : Str) : trim (to_lower s) = to_lower (trim s) := by
  unfold trim trim_left trim_right
  have hrev : ∀ t : Str, (to_lower t).reverse = to_lower t.reverse := by
    intro t
    unfold to_lower
    rw [List.map_reverse]
  rw [hrev, to_lower_dropWhile isspace isspace_toLower, hrev,
    to_lower_dropWhile isspace isspace_toLower]

theorem to_lower_indexOf (d : Char) (hd : ¬ (65 ≤ d.toNat ∧ d.toNat ≤ 90))
    (hd2 : ¬ (97 ≤ d.toNat ∧ d.toNat ≤ 122)) :
    ∀ s : Str, (to_lower s).indexOf d = s.indexOf d := by
  intro s
  induction s with
  | nil => rfl
  | cons c r ih =>
    unfold to_lower at ih ⊢
    rw [List.map_cons, List.indexOf_cons, List.indexOf_cons, ih]
    have hiff := toLower_eq_iff c d hd hd2
    by_cases hcd : c = d
    · have h1 : (Char.toLower c == d) = true := by simpa using hiff.mpr hcd
      have h2 : (c == d) = true := by simpa using hcd
      rw [h1, h2]
    · have h1 : (Char.toLower c == d) = false := by
        simpa using (fun h => hcd (hiff.mp h))
      have h2 : (c == d) = false := by simpa using hcd
      rw [h1, h2]

theorem to_lower_find_first_of (d : Char) (hd : ¬ (65 ≤ d.toNat ∧ d.toNat ≤ 90))
    (hd2 : ¬ (97 ≤ d.toNat ∧ d.toNat ≤ 122)) (s : Str) (pos : Nat) :
    find_first_of (to_lower s) d pos = find_first_of s d pos := by
  have hdrop : (to_lower s).drop pos = to_lower (s.drop pos) := by
    unfold to_lower
    rw [List.map_drop]
  have hlen : (to_lower (s.drop pos)).length = (s.drop pos).length := by
    unfold to_lower
    rw [List.length_map]
  unfold find_first_of
  rw [hdrop, to_lower_indexOf d hd hd2, hlen]

theorem to_lower_substr (s : Str) (pos n : Nat) :
    substr (to_lower s) pos n = to_lower (substr s pos n) := by
  unfold substr to_lower
  rw [List.map_take, List.map_drop]

theorem to_lower_substr_from (s : Str) (pos : Nat) :
    substr_from (to_lower s) pos = to_lower (substr_from s pos) := by
  unfold substr_from to_lower
  rw [List.map_drop]

theorem to_lower_strip_comment (raw : Str) :
    strip_comment (to_lower raw) = to_lower (strip_comment raw) := by
  unfold strip_comment
  rw [to_lower_find_first_of ';' (by decide) (by decide)]
  cases find_first_of raw ';' 0 with
  | none => exact to_lower_trim raw
  | some i =>
    simp only
    rw [to_lower_substr, to_lower_trim]

theorem to_lower_read_token (s : Str) :
    read_token (to_lower s) = (to_lower (read_token s).1, to_lower (read_token s).2) := by
  have hn : ∀ c, (!isspace (Char.toLower c)) = !isspace c := by
    intro c
    rw [isspace_toLower]
  unfold read_token
  rw [to_lower_dropWhile isspace isspace_toLower,
    to_lower_takeWhile (fun c => !isspace c) hn,
    to_lower_dropWhile (fun c => !isspace c) hn]

theorem handle_operand_to_lower (size : Nat) (li : LabelInfo) (o : Str) :
    handle_operand size li (to_lower o) = handle_operand size li o := by
  unfold handle_operand
  rw [to_lower_trim, to_lower_idem]

theorem emit_to_lower (lineno opcode : Nat) (tmp : Str) (st : State) :
    emit lineno opcode (to_lower tmp) st = emit lineno opcode tmp st := by
  unfold emit
  rw [to_lower_find_first_of ',' (by decide) (by decide), handle_operand_to_lower]
  simp only [to_lower_substr, to_lower_substr_from, handle_operand_to_lower]

/-- C19: for a line that, once stripped of its comment and trimmed, does not
start with `:`, the line and its lower-cased form have the same outcome from
every state: the same appended words and label table, or the same error. -/
theorem case_folding (lineno : Nat) (st : State) (raw : Str)
    (hcolon : (strip_comment raw).head? ≠ some ':') :
    process_line lineno st (to_lower raw) = process_line lineno st raw := by
  have hhead : (to_lower (strip_comment raw)).head? ≠ some ':' := by
    intro h
    apply hcolon
    cases hs : strip_comment raw with
    | nil => rw [hs] at h; cases h
    | cons c r =>
      rw [hs] at h
      simp only [to_lower, List.map_cons, List.head?_cons, Option.some.injEq] at h
      rw [(toLower_eq_iff c ':' (by decide) (by decide)).mp h]
      rfl
  have hnl : ∀ c, (Char.toLower c != Char.ofNat 10) = (c != Char.ofNat 10) := by
    intro c
    have hiff := toLower_eq_iff c (Char.ofNat 10) (by decide) (by decide)
    by_cases hc : c = Char.ofNat 10
    · rw [hiff.mpr hc, hc]
    · have h1 : Char.toLower c ≠ Char.ofNat 10 := fun h => hc (hiff.mp h)
      have e1 : (Char.toLower c != Char.ofNat 10) = true := bne_iff_ne.mpr h1
      have e2 : (c != Char.ofNat 10) = true := bne_iff_ne.mpr hc
      rw [e1, e2]
  have hname : instruction_name (to_lower (strip_comment raw)) =
      instruction_name (strip_comment raw) := by
    unfold instruction_name after_label
    rw [if_neg hhead, if_neg hcolon, to_lower_read_token, to_lower_idem]
  have htext : operand_text (to_lower (strip_comment raw)) =
      to_lower (operand_text (strip_comment raw)) := by
    unfold operand_text after_label
    rw [if_neg hhead, if_neg hcolon, to_lower_read_token]
    exact to_lower_takeWhile (fun c => c != Char.ofNat 10) hnl _
  have hlabel : define_line_label st (to_lower (strip_comment raw)) =
      define_line_label st (strip_comment raw) := by
    unfold define_line_label label_token
    rw [if_neg hhead, if_neg hcolon]
  have hempty : to_lower (strip_comment raw) = [] ↔ strip_comment raw = [] := by
    unfold to_lower
    exact List.map_eq_nil_iff
  unfold process_line
  rw [to_lower_strip_comment, hname, htext, hlabel]
  by_cases hl : strip_comment raw = []
  · rw [if_pos hl, if_pos (hempty.mpr hl)]
  · rw [if_neg hl, if_neg (fun h => hl (hempty.mp h))]
    cases opcodes.lookup (instruction_name (strip_comment raw)) with
    | none => rfl
    | some opcode =>
      simp only
      exact emit_to_lower _ _ _ _

/-- The line `  SET [0x1F + J], Loop ; Copy` has the outcome of its
lower-cased form. -/
theorem case_folding_witness :
    process_line 4 { code := [1, 2], label_info := [] }
        (to_lower "  SET [0x1F + J], Loop ; Copy".toList) =
      process_line 4 { code := [1, 2], label_info := [] }
        "  SET [0x1F + J], Loop ; Copy".toList :=
  case_folding 4 { code := [1, 2], label_info := [] } "  SET [0x1F + J], Loop ; Copy".toList
    (by decide)

/-! ## Label names and letter case -/

end Dcpu16
